import Mathlib

/-!
# Verification of the extractive summarization core of `podcast_transcriber.py`

This file gives a shallow embedding of the pure text-processing core of the
program (`clean_text`, `get_sentences`, `score_sentence`, `summarize_text`)
and proves properties about it.  Strings are modelled as `List Char`
(Python strings are sequences of code points); the fallible scorer returns
`Option`; Python's float score `sum/len` (an exact int-by-int true division
in every run reachable from `summarize`) is modelled by the exact rational
`mkRat sum len : ℚ`.
-/

/-- Code points of a string literal, the concrete text representation used throughout. -/
def strL (s : String) : List Char := s.data

/-- Python `str.isspace`-style whitespace recognised by `\s`, `str.split()` and
`str.strip()` (ASCII fragment: space, tab, newline, carriage return, vertical tab, form feed). -/
def isSpace (c : Char) : Bool :=
  c == ' ' || c == '\t' || c == '\n' || c == '\r' || c == '\x0b' || c == '\x0c'

/-- ASCII decimal digit, the `\d` class of the line-filtering regex. -/
def isDigitC (c : Char) : Bool := '0' ≤ c && c ≤ '9'

/-- Regex word character `\w` (ASCII fragment), used for `\b` word boundaries. -/
def isWordC (c : Char) : Bool :=
  ('a' ≤ c && c ≤ 'z') || ('A' ≤ c && c ≤ 'Z') || isDigitC c || c == '_'

/-- Sentence-terminator characters of the splitting regex `[.!?]+\s+`. -/
def isTermC (c : Char) : Bool := c == '.' || c == '!' || c == '?'

/-- Python `str.lower` on the ASCII fragment: uppercase letters map to lowercase,
everything else is unchanged. -/
def lowerChar : Char → Char
  | 'A' => 'a' | 'B' => 'b' | 'C' => 'c' | 'D' => 'd' | 'E' => 'e' | 'F' => 'f'
  | 'G' => 'g' | 'H' => 'h' | 'I' => 'i' | 'J' => 'j' | 'K' => 'k' | 'L' => 'l'
  | 'M' => 'm' | 'N' => 'n' | 'O' => 'o' | 'P' => 'p' | 'Q' => 'q' | 'R' => 'r'
  | 'S' => 's' | 'T' => 't' | 'U' => 'u' | 'V' => 'v' | 'W' => 'w' | 'X' => 'x'
  | 'Y' => 'y' | 'Z' => 'z' | c => c

/-- `text.lower()`. -/
def lowerS (l : List Char) : List Char := l.map lowerChar

/-- `text.split(sep)` for a single-character separator: keeps empty pieces. -/
def splitOnChar (sep : Char) : List Char → List (List Char)
  | [] => [[]]
  | c :: r =>
    match splitOnChar sep r with
    | [] => [[]]
    | p :: ps => if c == sep then [] :: p :: ps else (c :: p) :: ps

/-- `s.strip()`: remove leading and trailing whitespace. -/
def stripWS (l : List Char) : List Char :=
  ((l.dropWhile isSpace).reverse.dropWhile isSpace).reverse

/-- Worker for `str.split()` with no separator: `cur` is the current token,
reversed. -/
def splitWSAux : List Char → List Char → List (List Char)
  | cur, [] => if cur.isEmpty then [] else [cur.reverse]
  | cur, c :: r =>
    if isSpace c then
      if cur.isEmpty then splitWSAux [] r else cur.reverse :: splitWSAux [] r
    else splitWSAux (c :: cur) r

/-- `s.split()`: whitespace-delimited tokens, no empties. -/
def splitWS (l : List Char) : List (List Char) := splitWSAux [] l

/-- `re.sub(r'\s+', ' ', text)`: collapse every whitespace run to one space.
`ps` records whether the previously scanned character was whitespace. -/
def collapseWSAux : Bool → List Char → List Char
  | _, [] => []
  | ps, c :: r =>
    if isSpace c then
      if ps then collapseWSAux true r else ' ' :: collapseWSAux true r
    else c :: collapseWSAux false r

/-- `re.sub(r'\s+', ' ', text)` from the start of the text. -/
def collapseWS (l : List Char) : List Char := collapseWSAux false l

/-- `re.sub(r'\[.*?\]', '', text)` (resp. parentheses): the scanner state
`some b` holds the reversed characters of a span opened at `op` that has not
yet found `cl`; an unclosed opener is emitted verbatim at the end of input.
The text reaching these substitutions in `clean_text` contains no newline,
so `.` matches every remaining character. -/
def removeSpansAux (op cl : Char) : Option (List Char) → List Char → List Char
  | none, [] => []
  | some b, [] => b.reverse
  | none, c :: r =>
    if c == op then removeSpansAux op cl (some [c]) r
    else c :: removeSpansAux op cl none r
  | some b, c :: r =>
    if c == cl then removeSpansAux op cl none r
    else removeSpansAux op cl (some (c :: b)) r

/-- Non-greedy bracketed/parenthesised span removal, as `re.sub` scans it. -/
def removeSpans (op cl : Char) (l : List Char) : List Char :=
  removeSpansAux op cl none l

/-- Trailing `\b` test after a filler match: end of text or a non-word character. -/
def bndB : List Char → Bool
  | [] => true
  | c :: _ => !isWordC c

/-- `re.sub(r'\b(um|uh|ah|er|like)\b', '', text)` (case-sensitive, as in the
source).  The flag is `true` when the previously scanned character is a word
character, so that a filler may only match after a non-word character or at
the start; a filler whose trailing boundary fails is copied and scanning
resumes with a word-character flag, exactly as the regex scan advances. -/
def remFillAux : Bool → List Char → List Char
  | _, [] => []
  | true, c :: r => c :: remFillAux (isWordC c) r
  | false, 'u' :: 'm' :: r =>
    if bndB r then remFillAux true r else 'u' :: 'm' :: remFillAux true r
  | false, 'u' :: 'h' :: r =>
    if bndB r then remFillAux true r else 'u' :: 'h' :: remFillAux true r
  | false, 'a' :: 'h' :: r =>
    if bndB r then remFillAux true r else 'a' :: 'h' :: remFillAux true r
  | false, 'e' :: 'r' :: r =>
    if bndB r then remFillAux true r else 'e' :: 'r' :: remFillAux true r
  | false, 'l' :: 'i' :: 'k' :: 'e' :: r =>
    if bndB r then remFillAux true r else 'l' :: 'i' :: 'k' :: 'e' :: remFillAux true r
  | false, c :: r => c :: remFillAux (isWordC c) r

/-- Whole-word, case-sensitive filler removal from the start of the text. -/
def removeFillers (l : List Char) : List Char := remFillAux false l

/-- `^\d+$` of the line filter: a non-empty all-digit (stripped) line. -/
def pureDigits (l : List Char) : Bool := !l.isEmpty && l.all isDigitC

/-- `^\d{2}:\d{2}:` of the line filter. -/
def tsStart : List Char → Bool
  | a :: b :: c :: d :: e :: f :: _ =>
    isDigitC a && isDigitC b && c == ':' && isDigitC d && isDigitC e && f == ':'
  | _ => false

/-- `re.match(r'^\d+$|^\d{2}:\d{2}:', line)` on an already-stripped line. -/
def lineDrop (l : List Char) : Bool := pureDigits l || tsStart l

/-- `clean_text` of the source: line filtering, joining, span removal, filler
removal, whitespace collapsing, stripping. -/
def clean_text (text : List Char) : List Char :=
  let content := ((splitOnChar '\n' text).map stripWS).filter (fun l => !lineDrop l)
  let t1 := List.intercalate [' '] content
  let t2 := removeSpans '[' ']' t1
  let t3 := removeSpans '(' ')' t2
  let t4 := removeFillers t3
  let t5 := collapseWS t4
  stripWS t5

/-- `re.split(r'[.!?]+\s+', text)` as a left-to-right scan.  State `none`:
inside the whitespace tail of a separator just matched.  State
`some (cur, pend)`: `cur` is the current piece (reversed) and `pend` a
pending run of terminator characters (reversed) whose continuation decides
whether the run starts a separator (next char whitespace) or belongs to the
piece. -/
def splitSentA : Option (List Char × List Char) → List Char → List (List Char)
  | none, [] => [[]]
  | some (cur, pend), [] => [(pend ++ cur).reverse]
  | none, c :: r =>
    if isSpace c then splitSentA none r
    else if isTermC c then splitSentA (some ([], [c])) r
    else splitSentA (some ([c], [])) r
  | some (cur, pend), c :: r =>
    if isTermC c then splitSentA (some (cur, c :: pend)) r
    else if !pend.isEmpty && isSpace c then cur.reverse :: splitSentA none r
    else splitSentA (some (c :: (pend ++ cur), [])) r

/-- `re.split(r'[.!?]+\s+', text)`. -/
def splitSentences (text : List Char) : List (List Char) :=
  splitSentA (some ([], [])) text

/-- `get_sentences` of the source: split into sentences, keep the (stripped)
pieces with more than 5 whitespace-delimited words. -/
def get_sentences (text : List Char) : List (List Char) :=
  ((splitSentences text).filter (fun s => 5 < (splitWS s).length)).map stripWS

/-- `score_sentence` of the source.  A zero-word sentence raises
`ZeroDivisionError` in Python, modelled as `none`; otherwise the score is the
exact value of the true division `sum(freq.get(w, 0) for w in words) / len(words)`,
i.e. the rational `mkRat sum len`. -/
def score_sentence (sentence : List Char) (freq : List Char → Nat) : Option ℚ :=
  let ws := splitWS (lowerS sentence)
  if ws.length = 0 then none else some (mkRat ((ws.map freq).sum) ws.length)

/-- `Counter(cleaned.lower().split())` as a total map (`.get(w, 0)` on a
missing key is 0). -/
def freqOf (cleaned : List Char) : List Char → Nat :=
  fun w => (splitWS (lowerS cleaned)).count w

/-- The comprehension `[(score_sentence(s, word_freq), s) for s in sentences]`;
a scorer error on any sentence propagates (Python would raise). -/
def scoreAll (freq : List Char → Nat) : List (List Char) → Option (List (ℚ × List Char))
  | [] => some []
  | s :: rest =>
    match score_sentence s freq, scoreAll freq rest with
    | some q, some l => some ((q, s) :: l)
    | _, _ => none

/-- The scored pairs built inside `summarize_text`. -/
def scoredOf (text : List Char) : Option (List (ℚ × List Char)) :=
  scoreAll (freqOf (clean_text text)) (get_sentences (clean_text text))

/-- Python string comparison: lexicographic by code point. -/
def strLtB : List Char → List Char → Bool
  | [], [] => false
  | [], _ :: _ => true
  | _ :: _, [] => false
  | a :: as, b :: bs => decide (a < b) || (a == b && strLtB as bs)

/-- Python tuple comparison `(score, sentence) < (score', sentence')`. -/
def tupLtB (x y : ℚ × List Char) : Bool :=
  decide (x.1 < y.1) || (x.1 == y.1 && strLtB x.2 y.2)

/-- Stable descending insertion: `x` is placed before the first element not
strictly greater than it, so that `sortScored` agrees with Python's stable
`sorted(..., reverse=True)`. -/
def insTup (x : ℚ × List Char) : List (ℚ × List Char) → List (ℚ × List Char)
  | [] => [x]
  | y :: ys => if tupLtB x y then y :: insTup x ys else x :: y :: ys

/-- `sorted(scored, reverse=True)`. -/
def sortScored : List (ℚ × List Char) → List (ℚ × List Char)
  | [] => []
  | x :: xs => insTup x (sortScored xs)

/-- Python slice `l[:n]` for an `int` `n`: a nonnegative `n` takes the first
`n` elements, a negative `n` drops the last `-n`. -/
def pyTake (n : Int) (l : List α) : List α :=
  if 0 ≤ n then l.take n.toNat else l.take (l.length - (-n).toNat)

/-- `". ".join(texts) + "."`. -/
def joinDot (l : List (List Char)) : List Char :=
  List.intercalate (strL ". ") l ++ ['.']

/-- `summarize_text` of the source. -/
def summarize_text (text : List Char) (num : Int) : Option (List Char) :=
  if get_sentences (clean_text text) = [] then some []
  else
    match scoredOf text with
    | none => none
    | some scored => some (joinDot ((pyTake num (sortScored scored)).map Prod.snd))

/-! ## Basic lemmas about characters and whitespace -/

theorem isSpace_lowerChar (c : Char) : isSpace (lowerChar c) = isSpace c := by
  unfold lowerChar
  split <;> rfl

theorem isWordC_of_isSpace {c : Char} (h : isSpace c = true) : isWordC c = false := by
  simp only [isSpace, Bool.or_eq_true, beq_iff_eq] at h
  rcases h with ((((h | h) | h) | h) | h) | h <;> subst h <;> decide

theorem map_dropLast (g : α → β) : ∀ l : List α, (l.map g).dropLast = l.dropLast.map g
  | [] => rfl
  | [_] => rfl
  | a :: b :: t => by
    have ih := map_dropLast g (b :: t)
    rw [List.map_cons, List.map_cons, List.dropLast_cons₂, List.dropLast_cons₂,
      ← List.map_cons g b t, ih, List.map_cons]

theorem splitWSAux_nil_iff :
    ∀ (l cur : List Char), splitWSAux cur l = [] ↔ (cur = [] ∧ ∀ c ∈ l, isSpace c = true) := by
  intro l
  induction l with
  | nil =>
    intro cur
    cases cur with
    | nil => simp [splitWSAux]
    | cons a t => simp [splitWSAux]
  | cons c r ih =>
    intro cur
    cases hc : isSpace c with
    | false => cases cur <;> simp [splitWSAux, hc, ih]
    | true =>
      cases cur with
      | nil => simp [splitWSAux, hc, ih]
      | cons a t => simp [splitWSAux, hc]

theorem splitWS_nil_iff (l : List Char) : splitWS l = [] ↔ ∀ c ∈ l, isSpace c = true := by
  rw [splitWS, splitWSAux_nil_iff]
  simp

theorem splitWS_lowerS_nil_iff (l : List Char) : splitWS (lowerS l) = [] ↔ splitWS l = [] := by
  rw [splitWS_nil_iff, splitWS_nil_iff]
  constructor
  · intro h c hc
    rw [← isSpace_lowerChar]
    exact h _ (List.mem_map_of_mem lowerChar hc)
  · intro h d hd
    rcases List.mem_map.mp hd with ⟨c, hc, rfl⟩
    rw [isSpace_lowerChar]
    exact h _ hc

theorem exists_nonspace_dropWhile {l : List Char} (h : ¬ ∀ c ∈ l, isSpace c = true) :
    ∃ c ∈ l.dropWhile isSpace, isSpace c = false := by
  induction l with
  | nil => exact absurd (by simp) h
  | cons a t ih =>
    by_cases ha : isSpace a = true
    · rw [List.dropWhile_cons, if_pos ha]
      refine ih fun hall => h ?_
      intro c hc
      rcases List.mem_cons.mp hc with rfl | hc
      · exact ha
      · exact hall c hc
    · rw [List.dropWhile_cons, if_neg ha]
      exact ⟨a, List.mem_cons_self a t, Bool.not_eq_true _ ▸ ha⟩

theorem exists_nonspace_stripWS {l : List Char} (h : ¬ ∀ c ∈ l, isSpace c = true) :
    ∃ c ∈ stripWS l, isSpace c = false := by
  unfold stripWS
  rcases exists_nonspace_dropWhile h with ⟨c, hc, hcs⟩
  have h2 : ¬ ∀ d ∈ (l.dropWhile isSpace).reverse, isSpace d = true := by
    intro hall
    exact absurd (hall c (List.mem_reverse.mpr hc)) (by simp [hcs])
  rcases exists_nonspace_dropWhile h2 with ⟨d, hd, hds⟩
  exact ⟨d, List.mem_reverse.mpr hd, hds⟩

/-- Every sentence produced by the segmenter has at least one word: the key
fact making the scorer's division-by-zero branch unreachable from
`summarize_text`. -/
theorem sentence_words_ne_nil {t s : List Char} (h : s ∈ get_sentences t) :
    splitWS (lowerS s) ≠ [] := by
  rcases List.mem_map.mp h with ⟨p, hp, rfl⟩
  rcases List.mem_filter.mp hp with ⟨hpmem, hplen⟩
  have hlen : 5 < (splitWS p).length := by simpa using hplen
  have hne : splitWS p ≠ [] := by
    intro hnil
    rw [hnil] at hlen
    simp at hlen
  rw [Ne, splitWS_lowerS_nil_iff, splitWS_nil_iff]
  intro hall
  have hnotall : ¬ ∀ c ∈ p, isSpace c = true := by
    intro hall2
    exact hne ((splitWS_nil_iff p).mpr hall2)
  rcases exists_nonspace_stripWS hnotall with ⟨c, hc, hcs⟩
  rw [hall c hc] at hcs
  exact Bool.true_eq_false.mp hcs

/-! ## Totality of the scoring pipeline -/

theorem scoreAll_eq_some (freq : List Char → Nat) :
    ∀ sl : List (List Char), (∀ s ∈ sl, splitWS (lowerS s) ≠ []) →
      ∃ L, scoreAll freq sl = some L ∧ L.map Prod.snd = sl := by
  intro sl
  induction sl with
  | nil => exact fun _ => ⟨[], rfl, rfl⟩
  | cons s rest ih =>
    intro h
    rcases ih (fun x hx => h x (List.mem_cons_of_mem _ hx)) with ⟨L, hL, hsnd⟩
    have hs := h s (List.mem_cons_self _ _)
    have hlen : ¬ (splitWS (lowerS s)).length = 0 := by
      rw [List.length_eq_zero]
      exact hs
    refine ⟨(mkRat (((splitWS (lowerS s)).map freq).sum) (splitWS (lowerS s)).length, s) :: L,
      ?_, ?_⟩
    · simp [scoreAll, score_sentence, hlen, hL]
    · simp [hsnd]

theorem scoredOf_some (text : List Char) :
    ∃ L, scoredOf text = some L ∧ L.map Prod.snd = get_sentences (clean_text text) :=
  scoreAll_eq_some _ _ (fun _ hs => sentence_words_ne_nil hs)

theorem summarize_eq (text : List Char) (num : Int)
    (hne : get_sentences (clean_text text) ≠ []) (L : List (ℚ × List Char))
    (hL : scoredOf text = some L) :
    summarize_text text num = some (joinDot ((pyTake num (sortScored L)).map Prod.snd)) := by
  unfold summarize_text
  rw [if_neg hne, hL]

/-- C8: `summarize_text` is total: for every text and every count it returns a
string; in particular the scored list is always built without hitting the
scorer's division-by-zero branch, because every segmented sentence passes the
`> 5` word filter. -/
theorem summarize_total (text : List Char) (num : Int) :
    (∃ L, scoredOf text = some L) ∧ ∃ out, summarize_text text num = some out := by
  rcases scoredOf_some text with ⟨L, hL, -⟩
  refine ⟨⟨L, hL⟩, ?_⟩
  by_cases hne : get_sentences (clean_text text) = []
  · exact ⟨[], by simp [summarize_text, hne]⟩
  · exact ⟨_, summarize_eq text num hne L hL⟩

/-- C6: when segmentation of the normalized text is empty, `summarize_text`
returns the empty string (and no error) for every count. -/
theorem summarize_empty_sentences (text : List Char) (num : Int)
    (h : get_sentences (clean_text text) = []) : summarize_text text num = some (strL "") := by
  unfold summarize_text
  rw [if_pos h]
  rfl

theorem summarize_empty_sentences_witness :
    get_sentences (clean_text (strL "")) = [] ∧ summarize_text (strL "") 37 = some (strL "") :=
  ⟨by decide, summarize_empty_sentences _ 37 (by decide)⟩

/-- C1 (amended): with a nonempty segmentation, `summarize_text text 0`
returns exactly `"."`; the original claim fails for negative counts (Python
slice `[:n]` with negative `n` keeps all but the last `-n` sentences) and for
texts with empty segmentation (which return `""`). -/
theorem summarize_zero (text : List Char) (h : get_sentences (clean_text text) ≠ []) :
    summarize_text text 0 = some (strL ".") := by
  rcases scoredOf_some text with ⟨L, hL, -⟩
  rw [summarize_eq text 0 h L hL]
  have hp : pyTake 0 (sortScored L) = [] := by simp [pyTake]
  rw [hp]
  rfl

theorem summarize_zero_witness :
    get_sentences (clean_text (strL "alpha beta gamma delta epsilon zeta. alpha beta gamma delta epsilon zeta")) ≠ [] ∧
      summarize_text (strL "alpha beta gamma delta epsilon zeta. alpha beta gamma delta epsilon zeta") 0 = some (strL ".") :=
  ⟨by decide, summarize_zero _ (by decide)⟩

/-- C1 (counterexample): `maxSentences = -1 ≤ 0`, yet on a two-sentence text the
summary is a whole sentence rather than `"."`. -/
theorem summarize_neg_cex :
    ((-1 : Int) ≤ 0) ∧
      summarize_text (strL "alpha beta gamma delta epsilon zeta. alpha beta gamma delta epsilon zeta") (-1) =
        some (strL "alpha beta gamma delta epsilon zeta.") ∧
      summarize_text (strL "alpha beta gamma delta epsilon zeta. alpha beta gamma delta epsilon zeta") (-1) ≠
        some (strL ".") := by
  refine ⟨by decide, by decide, by decide⟩

/-- C9: the scorer fails (Python: `ZeroDivisionError`) precisely on zero-word
sentences, and otherwise returns the mean frequency of the sentence's
lowercased words. -/
theorem score_sentence_spec (s : List Char) (freq : List Char → Nat) :
    (score_sentence s freq = none ↔ splitWS s = []) ∧
    (splitWS s ≠ [] →
      score_sentence s freq =
        some ((Nat.cast (((splitWS (lowerS s)).map freq).sum) : ℚ) /
          (Nat.cast ((splitWS (lowerS s)).length) : ℚ))) := by
  constructor
  · unfold score_sentence
    by_cases h : (splitWS (lowerS s)).length = 0
    · rw [if_pos h]
      simpa using (splitWS_lowerS_nil_iff s).mp (List.length_eq_zero.mp h)
    · rw [if_neg h]
      have : ¬ splitWS s = [] := by
        rw [← splitWS_lowerS_nil_iff, ← List.length_eq_zero]
        exact h
      simp [this]
  · intro hne
    have h : ¬ (splitWS (lowerS s)).length = 0 := by
      rw [List.length_eq_zero, splitWS_lowerS_nil_iff]
      exact hne
    unfold score_sentence
    rw [if_neg h, Rat.mkRat_eq_div, Int.cast_natCast]

theorem score_sentence_spec_witness :
    splitWS (strL "hello world") ≠ [] ∧
      score_sentence (strL "hello world") (fun w => w.length) =
        some ((Nat.cast (((splitWS (lowerS (strL "hello world"))).map (fun w => w.length)).sum) : ℚ) /
          (Nat.cast ((splitWS (lowerS (strL "hello world"))).length) : ℚ)) :=
  ⟨by decide, (score_sentence_spec _ _).2 (by decide)⟩

/-! ## Ordering and sorting lemmas -/

theorem strLtB_asymm : ∀ l m : List Char, strLtB l m = true → strLtB m l = false := by
  intro l
  induction l with
  | nil =>
    intro m _
    cases m with
    | nil => rfl
    | cons b bs => rfl
  | cons a as ih =>
    intro m h
    cases m with
    | nil => exact absurd h (by simp [strLtB])
    | cons b bs =>
      simp only [strLtB, Bool.or_eq_true, decide_eq_true_eq, Bool.and_eq_true, beq_iff_eq] at h
      simp only [strLtB, Bool.or_eq_false_iff, decide_eq_false_iff_not, Bool.and_eq_false_iff,
        beq_eq_false_iff_ne, ne_eq]
      rcases h with h | ⟨rfl, h⟩
      · exact ⟨asymm h, Or.inl (ne_of_gt h)⟩
      · exact ⟨lt_irrefl a, Or.inr (ih bs h)⟩

theorem strLtB_negtrans :
    ∀ l m k : List Char, strLtB l m = false → strLtB m k = false → strLtB l k = false := by
  intro l
  induction l with
  | nil =>
    intro m k h1 h2
    cases m with
    | nil => exact h2
    | cons b bs => exact absurd h1 (by simp [strLtB])
  | cons a as ih =>
    intro m k h1 h2
    cases k with
    | nil => rfl
    | cons c cs =>
      cases m with
      | nil => exact absurd h2 (by simp [strLtB])
      | cons b bs =>
        simp only [strLtB, Bool.or_eq_false_iff, decide_eq_false_iff_not, Bool.and_eq_false_iff,
          beq_eq_false_iff_ne, ne_eq] at h1 h2 ⊢
        have hba : b ≤ a := le_of_not_lt h1.1
        have hcb : c ≤ b := le_of_not_lt h2.1
        refine ⟨not_lt_of_le (hcb.trans hba), ?_⟩
        by_cases hac : a = c
        · have hab : a = b := le_antisymm (hac ▸ hcb) hba

          have hbc : b = c := le_antisymm (hab ▸ hac ▸ le_refl a) hcb
          rcases h1.2 with hne | hs1
          · exact absurd hab hne
          · rcases h2.2 with hne | hs2
            · exact absurd hbc hne
            · exact Or.inr (ih bs cs hs1 hs2)
        · exact Or.inl hac

theorem tupLtB_asymm (x y : ℚ × List Char) (h : tupLtB x y = true) : tupLtB y x = false := by
  simp only [tupLtB, Bool.or_eq_true, decide_eq_true_eq, Bool.and_eq_true, beq_iff_eq] at h
  simp only [tupLtB, Bool.or_eq_false_iff, decide_eq_false_iff_not, Bool.and_eq_false_iff,
    beq_eq_false_iff_ne, ne_eq]
  rcases h with h | ⟨he, hs⟩
  · exact ⟨asymm h, Or.inl (ne_of_gt h)⟩
  · exact ⟨he ▸ lt_irrefl _, Or.inr (strLtB_asymm _ _ hs)⟩

theorem tupLtB_negtrans (x y z : ℚ × List Char)
    (h1 : tupLtB x y = false) (h2 : tupLtB y z = false) : tupLtB x z = false := by
  simp only [tupLtB, Bool.or_eq_false_iff, decide_eq_false_iff_not, Bool.and_eq_false_iff,
    beq_eq_false_iff_ne, ne_eq] at h1 h2 ⊢
  have hyx : y.1 ≤ x.1 := le_of_not_lt h1.1
  have hzy : z.1 ≤ y.1 := le_of_not_lt h2.1
  refine ⟨not_lt_of_le (hzy.trans hyx), ?_⟩
  by_cases hxz : x.1 = z.1
  · have hxy : x.1 = y.1 := le_antisymm (hxz ▸ hzy) hyx
    have hyz : y.1 = z.1 := le_antisymm (hxz ▸ hyx) hzy
    rcases h1.2 with hne | hs1
    · exact absurd hxy hne
    · rcases h2.2 with hne | hs2
      · exact absurd hyz hne
      · exact Or.inr (strLtB_negtrans _ _ _ hs1 hs2)
  · exact Or.inl hxz

theorem insTup_perm (x : ℚ × List Char) :
    ∀ l : List (ℚ × List Char), (insTup x l).Perm (x :: l) := by
  intro l
  induction l with
  | nil => exact List.Perm.refl _
  | cons y ys ih =>
    by_cases h : tupLtB x y = true
    · rw [insTup, if_pos h]
      exact (ih.cons y).trans (List.Perm.swap x y ys)
    · rw [insTup, if_neg h]

theorem sortScored_perm : ∀ l : List (ℚ × List Char), (sortScored l).Perm l := by
  intro l
  induction l with
  | nil => exact List.Perm.refl _
  | cons x xs ih => exact (insTup_perm x (sortScored xs)).trans (ih.cons x)

theorem insTup_pairwise (x : ℚ × List Char) :
    ∀ l : List (ℚ × List Char), l.Pairwise (fun a b => tupLtB a b = false) →
      (insTup x l).Pairwise (fun a b => tupLtB a b = false) := by
  intro l
  induction l with
  | nil => exact fun _ => List.pairwise_cons.mpr ⟨by simp, List.Pairwise.nil⟩
  | cons y ys ih =>
    intro h
    rcases List.pairwise_cons.mp h with ⟨hy, hys⟩
    by_cases hxy : tupLtB x y = true
    · rw [insTup, if_pos hxy]
      refine List.pairwise_cons.mpr ⟨?_, ih hys⟩
      intro z hz
      rcases List.mem_cons.mp ((insTup_perm x ys).mem_iff.mp hz) with rfl | hzys
      · exact tupLtB_asymm z y hxy
      · exact hy z hzys
    · rw [insTup, if_neg hxy]
      rw [Bool.not_eq_true] at hxy
      refine List.pairwise_cons.mpr ⟨?_, h⟩
      intro z hz
      rcases List.mem_cons.mp hz with rfl | hzys
      · exact hxy
      · exact tupLtB_negtrans x y z hxy (hy z hzys)

theorem sortScored_pairwise :
    ∀ l : List (ℚ × List Char), (sortScored l).Pairwise (fun a b => tupLtB a b = false) := by
  intro l
  induction l with
  | nil => exact List.Pairwise.nil
  | cons x xs ih => exact insTup_pairwise x (sortScored xs) ih

/-- C5: the ranking that `summarize_text` selects from and outputs is sorted
descending by score, and on exactly equal scores descending by the sentence
text (Python's default string order): the lexicographically greater sentence
comes first. -/
theorem ranking_ordered (text : List Char) (L : List (ℚ × List Char))
    (hL : scoredOf text = some L) :
    (sortScored L).Pairwise
      (fun a b => b.1 < a.1 ∨ (a.1 = b.1 ∧ strLtB a.2 b.2 = false)) := by
  refine (sortScored_pairwise L).imp ?_
  intro a b h
  simp only [tupLtB, Bool.or_eq_false_iff, decide_eq_false_iff_not, Bool.and_eq_false_iff,
    beq_eq_false_iff_ne, ne_eq] at h
  rcases lt_or_eq_of_le (le_of_not_lt h.1) with hba | hba
  · exact Or.inl hba
  · refine Or.inr ⟨hba.symm, ?_⟩
    rcases h.2 with hne | hs
    · exact absurd hba.symm hne
    · exact hs

theorem ranking_ordered_witness :
    (sortScored [(mkRat 11 6, strL "alpha beta gamma delta epsilon zeta"),
      (mkRat 11 6, strL "alpha beta gamma delta epsilon zeta")]).Pairwise
      (fun a b => b.1 < a.1 ∨ (a.1 = b.1 ∧ strLtB a.2 b.2 = false)) :=
  ranking_ordered
    (strL "alpha beta gamma delta epsilon zeta. alpha beta gamma delta epsilon zeta") _
    (by decide)

/-- C10: whenever the segmentation is nonempty (equivalently, whenever the
summary is nonempty), the summary is `joinDot` of a list of sentences each of
which occurs verbatim in `get_sentences (clean_text text)`: summaries are
extractive. -/
theorem summary_extractive (text : List Char) (num : Int)
    (h : get_sentences (clean_text text) ≠ []) :
    ∃ ps, summarize_text text num = some (joinDot ps) ∧
      ∀ p ∈ ps, p ∈ get_sentences (clean_text text) := by
  rcases scoredOf_some text with ⟨L, hL, hsnd⟩
  refine ⟨(pyTake num (sortScored L)).map Prod.snd, summarize_eq text num h L hL, ?_⟩
  intro p hp
  rcases List.mem_map.mp hp with ⟨pair, hpair, rfl⟩
  have hsub : pyTake num (sortScored L) ⊆ sortScored L := by
    unfold pyTake
    split
    · exact List.take_subset ..
    · exact List.take_subset ..
  have h2 : pair ∈ L := (sortScored_perm L).mem_iff.mp (hsub hpair)
  rw [← hsnd]
  exact List.mem_map_of_mem Prod.snd h2

theorem summary_extractive_witness :
    ∃ ps,
      summarize_text (strL "alpha beta gamma delta epsilon zeta. alpha beta gamma delta epsilon zeta") 10 =
        some (joinDot ps) ∧
      ∀ p ∈ ps,
        p ∈ get_sentences (clean_text
          (strL "alpha beta gamma delta epsilon zeta. alpha beta gamma delta epsilon zeta")) :=
  summary_extractive _ 10 (by decide)

set_option maxRecDepth 40000

/-- C7: the documented scenario.  Normalization drops the index line and the
timestamp line; segmentation keeps exactly the two identical long sentences
(dropping the short fragment); both receive the same score `18/10`; and the
one-sentence summary is that sentence followed by `"."`. -/
theorem scenario_pipeline :
    clean_text (strL "1\n00:00:01: Hello there\nThis is a great podcast about machine learning and data. This is a great podcast about machine learning and data. Short one.") =
      strL "This is a great podcast about machine learning and data. This is a great podcast about machine learning and data. Short one." ∧
    get_sentences (strL "This is a great podcast about machine learning and data. This is a great podcast about machine learning and data. Short one.") =
      [strL "This is a great podcast about machine learning and data",
        strL "This is a great podcast about machine learning and data"] ∧
    scoredOf (strL "1\n00:00:01: Hello there\nThis is a great podcast about machine learning and data. This is a great podcast about machine learning and data. Short one.") =
      some [(mkRat 18 10, strL "This is a great podcast about machine learning and data"),
        (mkRat 18 10, strL "This is a great podcast about machine learning and data")] ∧
    summarize_text (strL "1\n00:00:01: Hello there\nThis is a great podcast about machine learning and data. This is a great podcast about machine learning and data. Short one.") 1 =
      some (strL "This is a great podcast about machine learning and data.") := by
  refine ⟨by decide, by decide, by decide, by decide⟩

/-! ## Sentence terminators at piece ends (C3) -/

/-- The string ends with a sentence-terminator character. -/
def endT (p : List Char) : Bool :=
  match p.getLast? with
  | some c => isTermC c
  | none => false

/-- Invariant for the current (reversed) piece of the sentence splitter: its
first non-space character - the last non-space character of the piece - is
not a terminator. -/
def okCur (cur : List Char) : Bool :=
  match cur.dropWhile isSpace with
  | [] => true
  | c :: _ => !isTermC c

/-- State invariant for `splitSentA`. -/
def okState : Option (List Char × List Char) → Prop
  | none => True
  | some (cur, _) => okCur cur = true

theorem stripWS_concat_space {m : List Char} {c : Char} (hc : isSpace c = true) :
    stripWS (m ++ [c]) = stripWS m := by
  unfold stripWS
  rw [List.dropWhile_append]
  by_cases he : (m.dropWhile isSpace).isEmpty = true
  · rw [if_pos he]
    rw [List.isEmpty_iff] at he
    rw [he]
    simp [List.dropWhile_cons, hc]
  · rw [if_neg he]
    rw [List.reverse_append]
    simp only [List.reverse_singleton, List.singleton_append, List.dropWhile_cons, hc, if_pos]

theorem stripWS_concat_nonspace {m : List Char} {c : Char} (hc : isSpace c = false) :
    stripWS (m ++ [c]) = m.dropWhile isSpace ++ [c] := by
  unfold stripWS
  rw [List.dropWhile_append]
  by_cases he : (m.dropWhile isSpace).isEmpty = true
  · rw [if_pos he]
    rw [List.isEmpty_iff] at he
    rw [he]
    simp [List.dropWhile_cons, hc]
  · rw [if_neg he]
    rw [List.reverse_append]
    simp [List.dropWhile_cons, hc]

theorem endT_strip_of_okCur : ∀ cur : List Char, okCur cur = true →
    endT (stripWS cur.reverse) = false := by
  intro cur
  induction cur with
  | nil => intro _; rfl
  | cons c t ih =>
    intro h
    rw [List.reverse_cons]
    cases hc : isSpace c with
    | true =>
      rw [stripWS_concat_space hc]
      apply ih
      unfold okCur at h ⊢
      rwa [List.dropWhile_cons, if_pos hc] at h
    | false =>
      rw [stripWS_concat_nonspace hc]
      unfold okCur at h
      rw [List.dropWhile_cons, if_neg (by simp [hc])] at h
      simp only [Bool.not_eq_true'] at h
      unfold endT
      rw [List.getLast?_concat]
      exact h

theorem splitSentA_ne_nil : ∀ (l : List Char) (st), splitSentA st l ≠ [] := by
  intro l
  induction l with
  | nil =>
    intro st
    match st with
    | none => simp [splitSentA]
    | some (cur, pend) => simp [splitSentA]
  | cons c r ih =>
    intro st
    match st with
    | none =>
      by_cases hsp : isSpace c = true
      · simpa [splitSentA, hsp] using ih none
      · by_cases htm : isTermC c = true
        · simpa [splitSentA, hsp, htm] using ih (some ([], [c]))
        · simpa [splitSentA, hsp, htm] using ih (some ([c], []))
    | some (cur, pend) =>
      by_cases htm : isTermC c = true
      · simpa [splitSentA, htm] using ih (some (cur, c :: pend))
      · by_cases hsep : (!pend.isEmpty && isSpace c) = true
        · simp [splitSentA, htm, hsep]
        · simpa [splitSentA, htm, hsep] using ih (some (c :: (pend ++ cur), []))

theorem splitSentA_dropLast :
    ∀ (l : List Char) (st), okState st →
      ∀ p ∈ (splitSentA st l).dropLast, endT (stripWS p) = false := by
  intro l
  induction l with
  | nil =>
    intro st _ p hp
    match st with
    | none => simp [splitSentA] at hp
    | some (cur, pend) => simp [splitSentA] at hp
  | cons c r ih =>
    intro st hst p hp
    match st with
    | none =>
      by_cases hsp : isSpace c = true
      · rw [show splitSentA none (c :: r) = splitSentA none r from by
          simp [splitSentA, hsp]] at hp
        exact ih none trivial p hp
      · by_cases htm : isTermC c = true
        · rw [show splitSentA none (c :: r) = splitSentA (some ([], [c])) r from by
            simp [splitSentA, hsp, htm]] at hp
          exact ih (some ([], [c])) rfl p hp
        · rw [show splitSentA none (c :: r) = splitSentA (some ([c], [])) r from by
            simp [splitSentA, hsp, htm]] at hp
          refine ih (some ([c], [])) ?_ p hp
          show okCur [c] = true
          unfold okCur
          rw [List.dropWhile_cons, if_neg (by simp [hsp])]
          simp [htm]
    | some (cur, pend) =>
      have hcur : okCur cur = true := hst
      by_cases htm : isTermC c = true
      · rw [show splitSentA (some (cur, pend)) (c :: r) = splitSentA (some (cur, c :: pend)) r from by
          simp [splitSentA, htm]] at hp
        exact ih (some (cur, c :: pend)) hcur p hp
      · by_cases hsep : (!pend.isEmpty && isSpace c) = true
        · rw [show splitSentA (some (cur, pend)) (c :: r) = cur.reverse :: splitSentA none r from by
            simp [splitSentA, htm, hsep]] at hp
          cases hrec : splitSentA none r with
          | nil => exact absurd hrec (splitSentA_ne_nil r none)
          | cons b bt =>
            rw [hrec, List.dropLast_cons₂] at hp
            rcases List.mem_cons.mp hp with rfl | hp2
            · exact endT_strip_of_okCur cur hcur
            · refine ih none trivial p ?_
              rw [hrec]
              exact hp2
        · rw [show splitSentA (some (cur, pend)) (c :: r) =
              splitSentA (some (c :: (pend ++ cur), [])) r from by
            simp [splitSentA, htm, hsep]] at hp
          refine ih (some (c :: (pend ++ cur), [])) ?_ p hp
          show okCur (c :: (pend ++ cur)) = true
          unfold okCur
          cases hsp : isSpace c with
          | false =>
            rw [List.dropWhile_cons, if_neg (by simp [hsp])]
            simp [htm]
          | true =>
            have hpe : pend.isEmpty = true := by
              rcases Bool.and_eq_false_iff.mp (Bool.not_eq_true _ ▸ hsep) with h1 | h2
              · simpa using h1
              · rw [hsp] at h2
                exact absurd h2 (by simp)
            rw [List.isEmpty_iff] at hpe
            rw [hpe, List.nil_append, List.dropWhile_cons, if_pos hsp]
            exact hcur

theorem dropLast_filter_prop {α : Type _} (P : α → Prop) (f : α → Bool) :
    ∀ l : List α, (∀ q ∈ l.dropLast, P q) → ∀ q ∈ (l.filter f).dropLast, P q := by
  intro l
  induction l with
  | nil => intro _ q hq; simp at hq
  | cons a t ih =>
    intro h q hq
    have hsub : ∀ z ∈ t.dropLast, P z := by
      intro z hz
      apply h
      cases t with
      | nil => simp at hz
      | cons x xs =>
        rw [List.dropLast_cons₂]
        exact List.mem_cons_of_mem _ hz
    rw [List.filter_cons] at hq
    by_cases hfa : f a = true
    · rw [if_pos hfa] at hq
      cases hft : t.filter f with
      | nil =>
        rw [hft] at hq
        simp at hq
      | cons b bt =>
        rw [hft, List.dropLast_cons₂] at hq
        rcases List.mem_cons.mp hq with rfl | hq2
        · have htne : t ≠ [] := by
            intro h0
            rw [h0] at hft
            simp at hft
          apply h
          cases t with
          | nil => exact absurd rfl htne
          | cons x xs =>
            rw [List.dropLast_cons₂]
            exact List.mem_cons_self ..
        · refine ih hsub q ?_
          rw [hft]
          exact hq2
    · rw [if_neg hfa] at hq
      exact ih hsub q hq

/-- C3 (amended): no sentence returned by the segmenter other than possibly
the last one ends in a terminator character; separators (terminator runs
followed by whitespace) are discarded, but a terminator run at the very end
of the text, not being followed by whitespace, is retained on the final
piece. -/
theorem get_sentences_dropLast_no_terminator (text : List Char) :
    ∀ p ∈ (get_sentences text).dropLast, endT p = false := by
  intro p hp
  unfold get_sentences at hp
  rw [map_dropLast] at hp
  rcases List.mem_map.mp hp with ⟨q, hq, rfl⟩
  refine dropLast_filter_prop (fun z => endT (stripWS z) = false) _ (splitSentences text)
    ?_ q hq
  intro z hz
  exact splitSentA_dropLast text (some ([], [])) rfl z hz

theorem get_sentences_dropLast_no_terminator_witness :
    (strL "one two three four five six seven" ∈
      (get_sentences
        (strL "one two three four five six seven. eight nine ten eleven twelve thirteen.")).dropLast) ∧
      endT (strL "one two three four five six seven") = false :=
  ⟨by decide,
    get_sentences_dropLast_no_terminator
      (strL "one two three four five six seven. eight nine ten eleven twelve thirteen.") _
      (by decide)⟩

/-- C3 (counterexample): on a text whose final sentence ends the input with a
terminator and no following whitespace, the returned sentence keeps its
trailing `.`. -/
theorem get_sentences_trailing_terminator_cex :
    get_sentences (strL "one two three four five six.") = [strL "one two three four five six."] ∧
      endT (strL "one two three four five six.") = true :=
  ⟨by decide, by decide⟩

/-! ## Filler removal: basic lemmas -/

theorem remFill_true_cons (c : Char) (r : List Char) :
    remFillAux true (c :: r) = c :: remFillAux (isWordC c) r := rfl

theorem bndB_remFill_true (r : List Char) : bndB (remFillAux true r) = bndB r := by
  cases r <;> rfl

/-- No filler word starts at `c :: r`. -/
def noFillShape (c : Char) (r : List Char) : Prop :=
  (∀ r1, c = 'u' → r = 'm' :: r1 → False) ∧
  (∀ r1, c = 'u' → r = 'h' :: r1 → False) ∧
  (∀ r1, c = 'a' → r = 'h' :: r1 → False) ∧
  (∀ r1, c = 'e' → r = 'r' :: r1 → False) ∧
  (∀ r1, c = 'l' → r = 'i' :: 'k' :: 'e' :: r1 → False)

theorem remFill_dflt {c : Char} {r : List Char}
    (h1 : ∀ r1, c = 'u' → r = 'm' :: r1 → False)
    (h2 : ∀ r1, c = 'u' → r = 'h' :: r1 → False)
    (h3 : ∀ r1, c = 'a' → r = 'h' :: r1 → False)
    (h4 : ∀ r1, c = 'e' → r = 'r' :: r1 → False)
    (h5 : ∀ r1, c = 'l' → r = 'i' :: 'k' :: 'e' :: r1 → False) :
    remFillAux false (c :: r) = c :: remFillAux (isWordC c) r := by
  rw [remFillAux.eq_def]
  split <;> first | rfl | simp_all

theorem remFill_dflt2 {c : Char} {r : List Char} (h : noFillShape c r) :
    remFillAux false (c :: r) = c :: remFillAux (isWordC c) r :=
  remFill_dflt h.1 h.2.1 h.2.2.1 h.2.2.2.1 h.2.2.2.2

theorem remFillAux_length : ∀ (b : Bool) (l : List Char),
    (remFillAux b l).length ≤ l.length := by
  intro b l
  induction b, l using remFillAux.induct <;> simp_all [remFillAux] <;> omega

theorem isSpace_of_isWordC {c : Char} (h : isWordC c = true) : isSpace c = false := by
  cases hs : isSpace c with
  | false => rfl
  | true => exact absurd h (by rw [isWordC_of_isSpace hs]; simp)

theorem remFill_nonword_cons {c : Char} (h : isWordC c = false) (b : Bool) (r : List Char) :
    remFillAux b (c :: r) = c :: remFillAux false r := by
  cases b with
  | true => rw [remFill_true_cons, h]
  | false =>
    have hu : ¬ c = 'u' := fun hc => by rw [hc] at h; exact absurd h (by decide)
    have ha : ¬ c = 'a' := fun hc => by rw [hc] at h; exact absurd h (by decide)
    have he : ¬ c = 'e' := fun hc => by rw [hc] at h; exact absurd h (by decide)
    have hl : ¬ c = 'l' := fun hc => by rw [hc] at h; exact absurd h (by decide)
    rw [remFill_dflt (fun _ hc _ => hu hc) (fun _ hc _ => hu hc) (fun _ hc _ => ha hc)
      (fun _ hc _ => he hc) (fun _ hc _ => hl hc), h]

theorem remFill_allspace {ws : List Char} (h : ∀ c ∈ ws, isSpace c = true) (b : Bool) :
    remFillAux b ws = ws := by
  induction ws generalizing b with
  | nil => cases b <;> rfl
  | cons c ws2 ih =>
    have hw : isWordC c = false := isWordC_of_isSpace (h c (List.mem_cons_self ..))
    rw [remFill_nonword_cons hw, ih (fun d hd => h d (List.mem_cons_of_mem _ hd))]

theorem remFill_swap_of_bnd {m : List Char} (h : bndB m = true) :
    remFillAux false m = remFillAux true m := by
  cases m with
  | nil => rfl
  | cons c r =>
    have hw : isWordC c = false := by
      have : (!isWordC c) = true := h
      simpa using this
    rw [remFill_nonword_cons hw, remFill_true_cons, hw]

/-- A transformation that peels word-character heads one at a time: if the
output starts with a word character `d`, the input did too and the
transformation continues on the tails. -/
def PrefixSafe (F : List Char → List Char) : Prop :=
  ∀ d X (r : List Char), isWordC d = true → F r = d :: X → ∃ r2, r = d :: r2 ∧ F r2 = X

theorem noFillShape_of_prefixSafe {F : List Char → List Char} (hF : PrefixSafe F)
    {c : Char} {r : List Char} (h : noFillShape c r) : noFillShape c (F r) := by
  refine ⟨?_, ?_, ?_, ?_, ?_⟩
  · intro r1 hc hX
    rcases hF 'm' r1 r (by decide) hX with ⟨r2, hr, -⟩
    exact h.1 r2 hc hr
  · intro r1 hc hX
    rcases hF 'h' r1 r (by decide) hX with ⟨r2, hr, -⟩
    exact h.2.1 r2 hc hr
  · intro r1 hc hX
    rcases hF 'h' r1 r (by decide) hX with ⟨r2, hr, -⟩
    exact h.2.2.1 r2 hc hr
  · intro r1 hc hX
    rcases hF 'r' r1 r (by decide) hX with ⟨r2, hr, -⟩
    exact h.2.2.2.1 r2 hc hr
  · intro r1 hc hX
    rcases hF 'i' ('k' :: 'e' :: r1) r (by decide) hX with ⟨r2, hr2, hF2⟩
    rcases hF 'k' ('e' :: r1) r2 (by decide) hF2 with ⟨r3, hr3, hF3⟩
    rcases hF 'e' r1 r3 (by decide) hF3 with ⟨r4, hr4, -⟩
    exact h.2.2.2.2 r4 hc (by rw [hr2, hr3, hr4])

theorem prefixSafe_remFill_true : PrefixSafe (remFillAux true) := by
  intro d X r hd hF
  cases r with
  | nil => exact absurd hF (by simp [remFillAux])
  | cons e r2 =>
    rw [remFill_true_cons] at hF
    rcases List.cons.injEq .. ▸ hF with ⟨rfl, hX⟩
    exact ⟨r2, rfl, by rw [← hX, hd]⟩

theorem collapse_nonspace_cons {c : Char} (h : isSpace c = false) (ps : Bool) (r : List Char) :
    collapseWSAux ps (c :: r) = c :: collapseWSAux false r := by
  cases ps <;> simp [collapseWSAux, h]

theorem prefixSafe_collapse : PrefixSafe (collapseWSAux false) := by
  intro d X r hd hF
  cases r with
  | nil => exact absurd hF (by simp [collapseWSAux])
  | cons e r2 =>
    cases hs : isSpace e with
    | true =>
      rw [show collapseWSAux false (e :: r2) = ' ' :: collapseWSAux true r2 from by
        simp [collapseWSAux, hs]] at hF
      rcases List.cons.injEq .. ▸ hF with ⟨hsp, -⟩
      rw [← hsp] at hd
      exact absurd hd (by decide)
    | false =>
      rw [collapse_nonspace_cons hs] at hF
      rcases List.cons.injEq .. ▸ hF with ⟨rfl, hX⟩
      exact ⟨r2, rfl, hX⟩

theorem prefixSafe_append_ws {ws : List Char} (hws : ∀ d ∈ ws, isSpace d = true) :
    PrefixSafe (· ++ ws) := by
  intro d X r hd hF
  cases r with
  | nil =>
    simp only [List.nil_append] at hF
    have hmem : d ∈ ws := by rw [hF]; exact List.mem_cons_self ..
    have h1 := hws d hmem
    rw [isSpace_of_isWordC hd] at h1
    exact absurd h1 (by simp)
  | cons e r2 =>
    rcases List.cons.injEq .. ▸ hF with ⟨rfl, hX⟩
    exact ⟨r2, rfl, hX⟩

/-! ## Filler removal: idempotence -/

theorem remFillAux_idem : ∀ (b : Bool) (l : List Char),
    remFillAux b (remFillAux b l) = remFillAux b l := by
  intro b l
  induction b, l using remFillAux.induct with
  | case1 b => cases b <;> rfl
  | case2 c r ih => rw [remFill_true_cons, remFill_true_cons, ih]
  | case3 r hb ih =>
    rw [show remFillAux false ('u' :: 'm' :: r) = remFillAux true r from by
      simp [remFillAux, hb]]
    rw [remFill_swap_of_bnd (by rw [bndB_remFill_true]; exact hb)]
    exact ih
  | case4 r hb ih =>
    have hbf : bndB r = false := by simpa using hb
    rw [show remFillAux false ('u' :: 'm' :: r) = 'u' :: 'm' :: remFillAux true r from by
      simp [remFillAux, hbf]]
    rw [show remFillAux false ('u' :: 'm' :: remFillAux true r) =
        'u' :: 'm' :: remFillAux true (remFillAux true r) from by
      simp [remFillAux, bndB_remFill_true, hbf]]
    rw [ih]
  | case5 r hb ih =>
    rw [show remFillAux false ('u' :: 'h' :: r) = remFillAux true r from by
      simp [remFillAux, hb]]
    rw [remFill_swap_of_bnd (by rw [bndB_remFill_true]; exact hb)]
    exact ih
  | case6 r hb ih =>
    have hbf : bndB r = false := by simpa using hb
    rw [show remFillAux false ('u' :: 'h' :: r) = 'u' :: 'h' :: remFillAux true r from by
      simp [remFillAux, hbf]]
    rw [show remFillAux false ('u' :: 'h' :: remFillAux true r) =
        'u' :: 'h' :: remFillAux true (remFillAux true r) from by
      simp [remFillAux, bndB_remFill_true, hbf]]
    rw [ih]
  | case7 r hb ih =>
    rw [show remFillAux false ('a' :: 'h' :: r) = remFillAux true r from by
      simp [remFillAux, hb]]
    rw [remFill_swap_of_bnd (by rw [bndB_remFill_true]; exact hb)]
    exact ih
  | case8 r hb ih =>
    have hbf : bndB r = false := by simpa using hb
    rw [show remFillAux false ('a' :: 'h' :: r) = 'a' :: 'h' :: remFillAux true r from by
      simp [remFillAux, hbf]]
    rw [show remFillAux false ('a' :: 'h' :: remFillAux true r) =
        'a' :: 'h' :: remFillAux true (remFillAux true r) from by
      simp [remFillAux, bndB_remFill_true, hbf]]
    rw [ih]
  | case9 r hb ih =>
    rw [show remFillAux false ('e' :: 'r' :: r) = remFillAux true r from by
      simp [remFillAux, hb]]
    rw [remFill_swap_of_bnd (by rw [bndB_remFill_true]; exact hb)]
    exact ih
  | case10 r hb ih =>
    have hbf : bndB r = false := by simpa using hb
    rw [show remFillAux false ('e' :: 'r' :: r) = 'e' :: 'r' :: remFillAux true r from by
      simp [remFillAux, hbf]]
    rw [show remFillAux false ('e' :: 'r' :: remFillAux true r) =
        'e' :: 'r' :: remFillAux true (remFillAux true r) from by
      simp [remFillAux, bndB_remFill_true, hbf]]
    rw [ih]
  | case11 r hb ih =>
    rw [show remFillAux false ('l' :: 'i' :: 'k' :: 'e' :: r) = remFillAux true r from by
      simp [remFillAux, hb]]
    rw [remFill_swap_of_bnd (by rw [bndB_remFill_true]; exact hb)]
    exact ih
  | case12 r hb ih =>
    have hbf : bndB r = false := by simpa using hb
    rw [show remFillAux false ('l' :: 'i' :: 'k' :: 'e' :: r) =
        'l' :: 'i' :: 'k' :: 'e' :: remFillAux true r from by
      simp [remFillAux, hbf]]
    rw [show remFillAux false ('l' :: 'i' :: 'k' :: 'e' :: remFillAux true r) =
        'l' :: 'i' :: 'k' :: 'e' :: remFillAux true (remFillAux true r) from by
      simp [remFillAux, bndB_remFill_true, hbf]]
    rw [ih]
  | case13 c r hn1 hn2 hn3 hn4 hn5 ih =>
    have hsh : noFillShape c r := ⟨hn1, hn2, hn3, hn4, hn5⟩
    cases hw : isWordC c with
    | false =>
      rw [remFill_nonword_cons hw false r,
        remFill_nonword_cons hw false (remFillAux false r)]
      rw [hw] at ih
      rw [ih]
    | true =>
      rw [remFill_dflt2 hsh, hw]
      have hsh2 : noFillShape c (remFillAux true r) :=
        noFillShape_of_prefixSafe prefixSafe_remFill_true hsh
      rw [remFill_dflt2 hsh2, hw]
      rw [hw] at ih
      rw [ih]

/-! ## Filler removal: trailing whitespace -/

theorem bndB_append_ws {ws : List Char} (hws : ∀ d ∈ ws, isSpace d = true) (r : List Char) :
    bndB (r ++ ws) = bndB r := by
  cases r with
  | nil =>
    cases ws with
    | nil => rfl
    | cons d ws2 =>
      have := isWordC_of_isSpace (hws d (List.mem_cons_self ..))
      simp [bndB, this]
  | cons e r2 => rfl

theorem remFill_append_ws {ws : List Char} (hws : ∀ d ∈ ws, isSpace d = true) :
    ∀ (b : Bool) (l : List Char), remFillAux b (l ++ ws) = remFillAux b l ++ ws := by
  intro b l
  induction b, l using remFillAux.induct with
  | case1 b => rw [List.nil_append, remFill_allspace hws]; cases b <;> rfl
  | case2 c r ih => rw [List.cons_append, remFill_true_cons, remFill_true_cons, ih, List.cons_append]
  | case3 r hb ih =>
    simp only [List.cons_append]
    rw [show remFillAux false ('u' :: 'm' :: (r ++ ws)) = remFillAux true (r ++ ws) from by
      simp [remFillAux, bndB_append_ws hws, hb]]
    rw [show remFillAux false ('u' :: 'm' :: r) = remFillAux true r from by
      simp [remFillAux, hb]]
    exact ih
  | case4 r hb ih =>
    have hbf : bndB r = false := by simpa using hb
    simp only [List.cons_append]
    rw [show remFillAux false ('u' :: 'm' :: (r ++ ws)) = 'u' :: 'm' :: remFillAux true (r ++ ws) from by
      simp [remFillAux, bndB_append_ws hws, hbf]]
    rw [show remFillAux false ('u' :: 'm' :: r) = 'u' :: 'm' :: remFillAux true r from by
      simp [remFillAux, hbf]]
    rw [ih, List.cons_append, List.cons_append]
  | case5 r hb ih =>
    simp only [List.cons_append]
    rw [show remFillAux false ('u' :: 'h' :: (r ++ ws)) = remFillAux true (r ++ ws) from by
      simp [remFillAux, bndB_append_ws hws, hb]]
    rw [show remFillAux false ('u' :: 'h' :: r) = remFillAux true r from by
      simp [remFillAux, hb]]
    exact ih
  | case6 r hb ih =>
    have hbf : bndB r = false := by simpa using hb
    simp only [List.cons_append]
    rw [show remFillAux false ('u' :: 'h' :: (r ++ ws)) = 'u' :: 'h' :: remFillAux true (r ++ ws) from by
      simp [remFillAux, bndB_append_ws hws, hbf]]
    rw [show remFillAux false ('u' :: 'h' :: r) = 'u' :: 'h' :: remFillAux true r from by
      simp [remFillAux, hbf]]
    rw [ih, List.cons_append, List.cons_append]
  | case7 r hb ih =>
    simp only [List.cons_append]
    rw [show remFillAux false ('a' :: 'h' :: (r ++ ws)) = remFillAux true (r ++ ws) from by
      simp [remFillAux, bndB_append_ws hws, hb]]
    rw [show remFillAux false ('a' :: 'h' :: r) = remFillAux true r from by
      simp [remFillAux, hb]]
    exact ih
  | case8 r hb ih =>
    have hbf : bndB r = false := by simpa using hb
    simp only [List.cons_append]
    rw [show remFillAux false ('a' :: 'h' :: (r ++ ws)) = 'a' :: 'h' :: remFillAux true (r ++ ws) from by
      simp [remFillAux, bndB_append_ws hws, hbf]]
    rw [show remFillAux false ('a' :: 'h' :: r) = 'a' :: 'h' :: remFillAux true r from by
      simp [remFillAux, hbf]]
    rw [ih, List.cons_append, List.cons_append]
  | case9 r hb ih =>
    simp only [List.cons_append]
    rw [show remFillAux false ('e' :: 'r' :: (r ++ ws)) = remFillAux true (r ++ ws) from by
      simp [remFillAux, bndB_append_ws hws, hb]]
    rw [show remFillAux false ('e' :: 'r' :: r) = remFillAux true r from by
      simp [remFillAux, hb]]
    exact ih
  | case10 r hb ih =>
    have hbf : bndB r = false := by simpa using hb
    simp only [List.cons_append]
    rw [show remFillAux false ('e' :: 'r' :: (r ++ ws)) = 'e' :: 'r' :: remFillAux true (r ++ ws) from by
      simp [remFillAux, bndB_append_ws hws, hbf]]
    rw [show remFillAux false ('e' :: 'r' :: r) = 'e' :: 'r' :: remFillAux true r from by
      simp [remFillAux, hbf]]
    rw [ih, List.cons_append, List.cons_append]
  | case11 r hb ih =>
    simp only [List.cons_append]
    rw [show remFillAux false ('l' :: 'i' :: 'k' :: 'e' :: (r ++ ws)) = remFillAux true (r ++ ws) from by
      simp [remFillAux, bndB_append_ws hws, hb]]
    rw [show remFillAux false ('l' :: 'i' :: 'k' :: 'e' :: r) = remFillAux true r from by
      simp [remFillAux, hb]]
    exact ih
  | case12 r hb ih =>
    have hbf : bndB r = false := by simpa using hb
    simp only [List.cons_append]
    rw [show remFillAux false ('l' :: 'i' :: 'k' :: 'e' :: (r ++ ws)) =
        'l' :: 'i' :: 'k' :: 'e' :: remFillAux true (r ++ ws) from by
      simp [remFillAux, bndB_append_ws hws, hbf]]
    rw [show remFillAux false ('l' :: 'i' :: 'k' :: 'e' :: r) =
        'l' :: 'i' :: 'k' :: 'e' :: remFillAux true r from by
      simp [remFillAux, hbf]]
    rw [ih]
    simp
  | case13 c r hn1 hn2 hn3 hn4 hn5 ih =>
    have hsh : noFillShape c r := ⟨hn1, hn2, hn3, hn4, hn5⟩
    have hsh2 : noFillShape c (r ++ ws) :=
      noFillShape_of_prefixSafe (prefixSafe_append_ws hws) hsh
    rw [List.cons_append, remFill_dflt2 hsh2, remFill_dflt2 hsh, ih, List.cons_append]

/-! ## Filler removal is preserved by whitespace collapsing -/

theorem bndB_collapse_of_false {r : List Char} (h : bndB r = false) :
    bndB (collapseWSAux false r) = false := by
  cases r with
  | nil => exact absurd h (by simp [bndB])
  | cons d r2 =>
    have hw : isWordC d = true := by
      have : (!isWordC d) = false := h
      simpa using this
    rw [collapse_nonspace_cons (isSpace_of_isWordC hw)]
    simpa [bndB] using h

theorem collapse_preserves_remFill_fix :
    ∀ (b : Bool) (l : List Char), ∀ ps : Bool, (ps = true → b = false) →
      remFillAux b l = l → remFillAux b (collapseWSAux ps l) = collapseWSAux ps l := by
  intro b l
  induction b, l using remFillAux.induct with
  | case1 b =>
    intro ps _ _
    cases ps <;> cases b <;> rfl
  | case2 c r ih =>
    intro ps hps hfix
    have hr : remFillAux (isWordC c) r = r := by
      rw [remFill_true_cons] at hfix
      exact (List.cons.injEq .. ▸ hfix).2
    cases ps with
    | true => exact absurd (hps rfl) (by simp)
    | false =>
      cases hs : isSpace c with
      | true =>
        have hw : isWordC c = false := isWordC_of_isSpace hs
        rw [show collapseWSAux false (c :: r) = ' ' :: collapseWSAux true r from by
          simp [collapseWSAux, hs]]
        rw [remFill_true_cons]
        have := ih true (fun _ => hw) hr
        rw [hw] at this
        rw [show isWordC ' ' = false from by decide, this]
      | false =>
        rw [collapse_nonspace_cons hs, remFill_true_cons]
        rw [ih false (fun h => absurd h (by simp)) hr]
  | case3 r hb ih =>
    intro ps _ hfix
    rw [show remFillAux false ('u' :: 'm' :: r) = remFillAux true r from by
      simp [remFillAux, hb]] at hfix
    have := remFillAux_length true r
    rw [hfix] at this
    simp only [List.length_cons] at this
    omega
  | case4 r hb ih =>
    intro ps _ hfix
    have hbf : bndB r = false := by simpa using hb
    rw [show remFillAux false ('u' :: 'm' :: r) = 'u' :: 'm' :: remFillAux true r from by
      simp [remFillAux, hbf]] at hfix
    have hr : remFillAux true r = r := by
      have h2 := List.cons.injEq .. ▸ hfix
      exact (List.cons.injEq .. ▸ h2.2).2
    rw [collapse_nonspace_cons (by decide), collapse_nonspace_cons (by decide)]
    rw [show remFillAux false ('u' :: 'm' :: collapseWSAux false r) =
        'u' :: 'm' :: remFillAux true (collapseWSAux false r) from by
      simp [remFillAux, bndB_collapse_of_false hbf]]
    rw [ih false (fun h => absurd h (by simp)) hr]
  | case5 r hb ih =>
    intro ps _ hfix
    rw [show remFillAux false ('u' :: 'h' :: r) = remFillAux true r from by
      simp [remFillAux, hb]] at hfix
    have := remFillAux_length true r
    rw [hfix] at this
    simp only [List.length_cons] at this
    omega
  | case6 r hb ih =>
    intro ps _ hfix
    have hbf : bndB r = false := by simpa using hb
    rw [show remFillAux false ('u' :: 'h' :: r) = 'u' :: 'h' :: remFillAux true r from by
      simp [remFillAux, hbf]] at hfix
    have hr : remFillAux true r = r := by
      have h2 := List.cons.injEq .. ▸ hfix
      exact (List.cons.injEq .. ▸ h2.2).2
    rw [collapse_nonspace_cons (by decide), collapse_nonspace_cons (by decide)]
    rw [show remFillAux false ('u' :: 'h' :: collapseWSAux false r) =
        'u' :: 'h' :: remFillAux true (collapseWSAux false r) from by
      simp [remFillAux, bndB_collapse_of_false hbf]]
    rw [ih false (fun h => absurd h (by simp)) hr]
  | case7 r hb ih =>
    intro ps _ hfix
    rw [show remFillAux false ('a' :: 'h' :: r) = remFillAux true r from by
      simp [remFillAux, hb]] at hfix
    have := remFillAux_length true r
    rw [hfix] at this
    simp only [List.length_cons] at this
    omega
  | case8 r hb ih =>
    intro ps _ hfix
    have hbf : bndB r = false := by simpa using hb
    rw [show remFillAux false ('a' :: 'h' :: r) = 'a' :: 'h' :: remFillAux true r from by
      simp [remFillAux, hbf]] at hfix
    have hr : remFillAux true r = r := by
      have h2 := List.cons.injEq .. ▸ hfix
      exact (List.cons.injEq .. ▸ h2.2).2
    rw [collapse_nonspace_cons (by decide), collapse_nonspace_cons (by decide)]
    rw [show remFillAux false ('a' :: 'h' :: collapseWSAux false r) =
        'a' :: 'h' :: remFillAux true (collapseWSAux false r) from by
      simp [remFillAux, bndB_collapse_of_false hbf]]
    rw [ih false (fun h => absurd h (by simp)) hr]
  | case9 r hb ih =>
    intro ps _ hfix
    rw [show remFillAux false ('e' :: 'r' :: r) = remFillAux true r from by
      simp [remFillAux, hb]] at hfix
    have := remFillAux_length true r
    rw [hfix] at this
    simp only [List.length_cons] at this
    omega
  | case10 r hb ih =>
    intro ps _ hfix
    have hbf : bndB r = false := by simpa using hb
    rw [show remFillAux false ('e' :: 'r' :: r) = 'e' :: 'r' :: remFillAux true r from by
      simp [remFillAux, hbf]] at hfix
    have hr : remFillAux true r = r := by
      have h2 := List.cons.injEq .. ▸ hfix
      exact (List.cons.injEq .. ▸ h2.2).2
    rw [collapse_nonspace_cons (by decide), collapse_nonspace_cons (by decide)]
    rw [show remFillAux false ('e' :: 'r' :: collapseWSAux false r) =
        'e' :: 'r' :: remFillAux true (collapseWSAux false r) from by
      simp [remFillAux, bndB_collapse_of_false hbf]]
    rw [ih false (fun h => absurd h (by simp)) hr]
  | case11 r hb ih =>
    intro ps _ hfix
    rw [show remFillAux false ('l' :: 'i' :: 'k' :: 'e' :: r) = remFillAux true r from by
      simp [remFillAux, hb]] at hfix
    have := remFillAux_length true r
    rw [hfix] at this
    simp only [List.length_cons] at this
    omega
  | case12 r hb ih =>
    intro ps _ hfix
    have hbf : bndB r = false := by simpa using hb
    rw [show remFillAux false ('l' :: 'i' :: 'k' :: 'e' :: r) =
        'l' :: 'i' :: 'k' :: 'e' :: remFillAux true r from by
      simp [remFillAux, hbf]] at hfix
    have hr : remFillAux true r = r := by
      have h2 := List.cons.injEq .. ▸ hfix
      have h3 := List.cons.injEq .. ▸ h2.2
      have h4 := List.cons.injEq .. ▸ h3.2
      exact (List.cons.injEq .. ▸ h4.2).2
    rw [collapse_nonspace_cons (by decide), collapse_nonspace_cons (by decide),
      collapse_nonspace_cons (by decide), collapse_nonspace_cons (by decide)]
    rw [show remFillAux false ('l' :: 'i' :: 'k' :: 'e' :: collapseWSAux false r) =
        'l' :: 'i' :: 'k' :: 'e' :: remFillAux true (collapseWSAux false r) from by
      simp [remFillAux, bndB_collapse_of_false hbf]]
    rw [ih false (fun h => absurd h (by simp)) hr]
  | case13 c r hn1 hn2 hn3 hn4 hn5 ih =>
    intro ps _ hfix
    have hsh : noFillShape c r := ⟨hn1, hn2, hn3, hn4, hn5⟩
    have hr : remFillAux (isWordC c) r = r := by
      rw [remFill_dflt2 hsh] at hfix
      exact (List.cons.injEq .. ▸ hfix).2
    cases hs : isSpace c with
    | true =>
      have hw : isWordC c = false := isWordC_of_isSpace hs
      have hrf : remFillAux false r = r := by rw [← hw]; exact hr
      have hmain : remFillAux false (collapseWSAux true r) = collapseWSAux true r := by
        have := ih true (fun _ => hw) hr
        rwa [hw] at this
      cases ps with
      | true =>
        rw [show collapseWSAux true (c :: r) = collapseWSAux true r from by
          simp [collapseWSAux, hs]]
        exact hmain
      | false =>
        rw [show collapseWSAux false (c :: r) = ' ' :: collapseWSAux true r from by
          simp [collapseWSAux, hs]]
        rw [remFill_nonword_cons (by decide) false, hmain]
    | false =>
      rw [collapse_nonspace_cons hs]
      have hsh2 : noFillShape c (collapseWSAux false r) :=
        noFillShape_of_prefixSafe prefixSafe_collapse hsh
      rw [remFill_dflt2 hsh2]
      rw [ih false (fun h => absurd h (by simp)) hr]

/-! ## Filler removal is preserved by stripping -/

theorem remFill_fix_dropWhile {l : List Char} (h : remFillAux false l = l) :
    remFillAux false (l.dropWhile isSpace) = l.dropWhile isSpace := by
  induction l with
  | nil => rfl
  | cons c r ih =>
    cases hs : isSpace c with
    | true =>
      have hw := isWordC_of_isSpace hs
      rw [remFill_nonword_cons hw false r] at h
      have hr : remFillAux false r = r := (List.cons.injEq .. ▸ h).2
      rw [List.dropWhile_cons, if_pos hs]
      exact ih hr
    | false =>
      rw [List.dropWhile_cons, if_neg (by simp [hs])]
      exact h

theorem strip_back_decomp (m : List Char) :
    m = (m.reverse.dropWhile isSpace).reverse ++ (m.reverse.takeWhile isSpace).reverse ∧
      ∀ c ∈ (m.reverse.takeWhile isSpace).reverse, isSpace c = true := by
  constructor
  · have h := List.takeWhile_append_dropWhile isSpace m.reverse
    have h2 : m = (m.reverse.takeWhile isSpace ++ m.reverse.dropWhile isSpace).reverse := by
      rw [h, List.reverse_reverse]
    rw [List.reverse_append] at h2
    exact h2
  · intro c hc
    exact List.mem_takeWhile_imp (List.mem_reverse.mp hc)

theorem remFill_fix_strip {l : List Char} (h : remFillAux false l = l) :
    remFillAux false (stripWS l) = stripWS l := by
  have hm : remFillAux false (l.dropWhile isSpace) = l.dropWhile isSpace :=
    remFill_fix_dropWhile h
  obtain ⟨hdec, hsp⟩ := strip_back_decomp (l.dropWhile isSpace)
  have hT := remFill_append_ws hsp false
    ((l.dropWhile isSpace).reverse.dropWhile isSpace).reverse
  rw [← hdec, hm] at hT
  have heq : ((l.dropWhile isSpace).reverse.dropWhile isSpace).reverse ++
      ((l.dropWhile isSpace).reverse.takeWhile isSpace).reverse =
      remFillAux false (((l.dropWhile isSpace).reverse.dropWhile isSpace).reverse) ++
        ((l.dropWhile isSpace).reverse.takeWhile isSpace).reverse := by
    rw [← hdec]
    exact hT
  have hcancel := List.append_cancel_right heq
  show remFillAux false (((l.dropWhile isSpace).reverse.dropWhile isSpace).reverse) =
    ((l.dropWhile isSpace).reverse.dropWhile isSpace).reverse
  exact hcancel.symm

theorem remFill_fix_clean_chain (x : List Char) :
    remFillAux false (stripWS (collapseWSAux false (remFillAux false x))) =
      stripWS (collapseWSAux false (remFillAux false x)) := by
  have h1 : remFillAux false (remFillAux false x) = remFillAux false x := remFillAux_idem false x
  have h2 := collapse_preserves_remFill_fix false (remFillAux false x) false
    (fun h => absurd h (by simp)) h1
  exact remFill_fix_strip h2

/-- C2 (amended): the normalizer's filler removal is exact-case only, so the
guarantee that holds of `clean_text` is that its output contains no whole-word
occurrence of the lowercase fillers `um`, `uh`, `ah`, `er`, `like`: running the
filler substitution again removes nothing.  Mixed- or upper-case variants
(e.g. `Um`, `LIKE`) are not removed (see the counterexample). -/
theorem clean_text_no_fillers (s : List Char) :
    removeFillers (clean_text s) = clean_text s :=
  remFill_fix_clean_chain
    (removeSpans '(' ')' (removeSpans '[' ']' (List.intercalate [' ']
      (((splitOnChar '\n' s).map stripWS).filter (fun l => !lineDrop l)))))

/-- C2 (counterexample): `clean_text` does not remove the capitalized filler
`"Um"`: the normalized text still contains a filler token up to case
(lowercasing the output and running the filler substitution changes it). -/
theorem clean_text_fillers_case_cex :
    clean_text (strL "Um one two") = strL "Um one two" ∧
      removeFillers (lowerS (clean_text (strL "Um one two"))) ≠
        lowerS (clean_text (strL "Um one two")) :=
  ⟨by decide, by decide⟩

/-! ## Bracket and parenthesis spans: no pair survives the substitution -/

/-- No closer `cl` occurs anywhere after an opener `op`: on such text the
non-greedy span substitution is the identity. -/
def pairFreeB (op cl : Char) : List Char → Bool
  | [] => true
  | c :: r => if c == op then decide (cl ∉ r) else pairFreeB op cl r

theorem pairFreeB_of_not_mem {op cl : Char} : ∀ {m : List Char}, cl ∉ m →
    pairFreeB op cl m = true := by
  intro m
  induction m with
  | nil => intro _; rfl
  | cons c r ih =>
    intro h
    by_cases hc : (c == op) = true
    · simp only [pairFreeB, if_pos hc, decide_eq_true_eq]
      exact fun hm => h (List.mem_cons_of_mem _ hm)
    · simp only [pairFreeB, if_neg hc]
      exact ih fun hm => h (List.mem_cons_of_mem _ hm)

theorem pairFreeB_tail {op cl c : Char} {r : List Char}
    (h : pairFreeB op cl (c :: r) = true) : pairFreeB op cl r = true := by
  by_cases hc : (c == op) = true
  · simp only [pairFreeB, if_pos hc, decide_eq_true_eq] at h
    exact pairFreeB_of_not_mem h
  · simpa only [pairFreeB, if_neg hc] using h

theorem removeSpansAux_no_close {op cl : Char} : ∀ {m : List Char}, cl ∉ m → ∀ b,
    removeSpansAux op cl (some b) m = b.reverse ++ m := by
  intro m
  induction m with
  | nil => intro _ b; simp [removeSpansAux]
  | cons c r ih =>
    intro h b
    have hc : (c == cl) = false := by
      simp only [beq_eq_false_iff_ne, ne_eq]
      intro hce
      exact h (hce ▸ List.mem_cons_self ..)
    rw [show removeSpansAux op cl (some b) (c :: r) = removeSpansAux op cl (some (c :: b)) r from by
      simp [removeSpansAux, hc]]
    rw [ih (fun hm => h (List.mem_cons_of_mem _ hm)) (c :: b)]
    simp

theorem removeSpansAux_to_close {op cl : Char} : ∀ {r1 : List Char}, cl ∉ r1 →
    ∀ b r2, removeSpansAux op cl (some b) (r1 ++ cl :: r2) = removeSpansAux op cl none r2 := by
  intro r1
  induction r1 with
  | nil =>
    intro _ b r2
    simp [removeSpansAux]
  | cons c r1t ih =>
    intro h b r2
    have hc : (c == cl) = false := by
      simp only [beq_eq_false_iff_ne, ne_eq]
      intro hce
      exact h (hce ▸ List.mem_cons_self ..)
    rw [List.cons_append]
    rw [show removeSpansAux op cl (some b) (c :: (r1t ++ cl :: r2)) =
        removeSpansAux op cl (some (c :: b)) (r1t ++ cl :: r2) from by
      simp [removeSpansAux, hc]]
    exact ih (fun hm => h (List.mem_cons_of_mem _ hm)) (c :: b) r2

theorem mem_split_first {c : Char} : ∀ {r : List Char}, c ∈ r →
    ∃ r1 r2, r = r1 ++ c :: r2 ∧ c ∉ r1 := by
  intro r
  induction r with
  | nil => intro h; exact absurd h (List.not_mem_nil c)
  | cons a t ih =>
    intro h
    by_cases hac : a = c
    · exact ⟨[], t, by rw [hac, List.nil_append], List.not_mem_nil c⟩
    · rcases ih (by rcases List.mem_cons.mp h with h1 | h1; exact absurd h1.symm hac; exact h1)
        with ⟨r1, r2, hre, hnm⟩
      refine ⟨a :: r1, r2, by rw [hre, List.cons_append], ?_⟩
      intro hm
      rcases List.mem_cons.mp hm with h1 | h1
      · exact hac h1.symm
      · exact hnm h1

theorem removeSpans_open_eq {op cl c : Char} {r : List Char} (hop : (c == op) = true) :
    removeSpans op cl (c :: r) = removeSpansAux op cl (some [c]) r := by
  simp [removeSpans, removeSpansAux, hop]

theorem removeSpans_other_eq {op cl c : Char} {r : List Char} (hop : ¬ (c == op) = true) :
    removeSpans op cl (c :: r) = c :: removeSpans op cl r := by
  simp [removeSpans, removeSpansAux, hop]

theorem removeSpans_sublist_fuel (op cl : Char) :
    ∀ (n : Nat) (l : List Char), l.length ≤ n → List.Sublist (removeSpans op cl l) l := by
  intro n
  induction n with
  | zero =>
    intro l hl
    rw [List.length_eq_zero.mp (Nat.le_zero.mp hl)]
    exact List.Sublist.refl _
  | succ n ih =>
    intro l hl
    cases l with
    | nil => exact List.Sublist.refl _
    | cons c r =>
      by_cases hop : (c == op) = true
      · by_cases hcl : cl ∈ r
        · rcases mem_split_first hcl with ⟨r1, r2, hre, hnm⟩
          have e : removeSpans op cl (c :: r) = removeSpans op cl r2 := by
            rw [removeSpans_open_eq hop, hre, removeSpansAux_to_close hnm]
            rfl
          rw [e]
          have hlen : r2.length ≤ n := by
            have : r.length ≤ n := by simpa using hl
            rw [hre] at this
            simp only [List.length_append, List.length_cons] at this
            omega
          have s1 : List.Sublist (removeSpans op cl r2) r2 := ih r2 hlen
          have s2 : List.Sublist r2 (cl :: r2) := List.sublist_cons_self ..
          have s3 : List.Sublist (cl :: r2) r := by
            rw [hre]
            exact List.sublist_append_right ..
          exact List.Sublist.cons c (s1.trans (s2.trans s3))
        · have e : removeSpans op cl (c :: r) = c :: r := by
            rw [removeSpans_open_eq hop, removeSpansAux_no_close hcl]
            rfl
          rw [e]
      · rw [removeSpans_other_eq hop]
        exact List.Sublist.cons₂ c (ih r (by simpa using hl))

theorem removeSpans_sublist (op cl : Char) (l : List Char) :
    List.Sublist (removeSpans op cl l) l :=
  removeSpans_sublist_fuel op cl l.length l (Nat.le_refl _)

theorem removeSpans_pairFree_fuel (op cl : Char) :
    ∀ (n : Nat) (l : List Char), l.length ≤ n →
      pairFreeB op cl (removeSpans op cl l) = true := by
  intro n
  induction n with
  | zero =>
    intro l hl
    rw [List.length_eq_zero.mp (Nat.le_zero.mp hl)]
    rfl
  | succ n ih =>
    intro l hl
    cases l with
    | nil => rfl
    | cons c r =>
      by_cases hop : (c == op) = true
      · by_cases hcl : cl ∈ r
        · rcases mem_split_first hcl with ⟨r1, r2, hre, hnm⟩
          have e : removeSpans op cl (c :: r) = removeSpans op cl r2 := by
            rw [removeSpans_open_eq hop, hre, removeSpansAux_to_close hnm]
            rfl
          rw [e]
          refine ih r2 ?_
          have : r.length ≤ n := by simpa using hl
          rw [hre] at this
          simp only [List.length_append, List.length_cons] at this
          omega
        · have e : removeSpans op cl (c :: r) = c :: r := by
            rw [removeSpans_open_eq hop, removeSpansAux_no_close hcl]
            rfl
          rw [e]
          simp only [pairFreeB, if_pos hop, decide_eq_true_eq]
          exact hcl
      · rw [removeSpans_other_eq hop]
        simp only [pairFreeB, if_neg hop]
        exact ih r (by simpa using hl)

theorem removeSpans_pairFree (op cl : Char) (l : List Char) :
    pairFreeB op cl (removeSpans op cl l) = true :=
  removeSpans_pairFree_fuel op cl l.length l (Nat.le_refl _)

theorem pairFree_removeSpans_id {op cl : Char} : ∀ {l : List Char},
    pairFreeB op cl l = true → removeSpans op cl l = l := by
  intro l
  induction l with
  | nil => intro _; rfl
  | cons c r ih =>
    intro h
    by_cases hop : (c == op) = true
    · have hcl : cl ∉ r := by
        simp only [pairFreeB, if_pos hop, decide_eq_true_eq] at h
        exact h
      rw [removeSpans_open_eq hop, removeSpansAux_no_close hcl]
      rfl
    · simp only [pairFreeB, if_neg hop] at h
      rw [removeSpans_other_eq hop, ih h]

theorem pairFreeB_sublist {op cl : Char} {l1 l2 : List Char} (h : List.Sublist l1 l2)
    (hp : pairFreeB op cl l2 = true) : pairFreeB op cl l1 = true := by
  induction h with
  | slnil => rfl
  | cons a hsub ih => exact ih (pairFreeB_tail hp)
  | cons₂ a hsub ih =>
    by_cases hop : (a == op) = true
    · simp only [pairFreeB, if_pos hop, decide_eq_true_eq] at hp ⊢
      exact fun hm => hp (hsub.subset hm)
    · simp only [pairFreeB, if_neg hop] at hp ⊢
      exact ih hp

/-! ## Later pipeline stages preserve pair-freeness -/

/-- Whitespace characters squashed to a plain space; other characters kept.
Collapsing is a sublist of this character-wise image. -/
def spcChar (c : Char) : Char := if isSpace c then ' ' else c

theorem collapse_sublist_spc : ∀ (ps : Bool) (l : List Char),
    List.Sublist (collapseWSAux ps l) (l.map spcChar) := by
  intro ps l
  induction l generalizing ps with
  | nil => exact List.Sublist.refl _
  | cons c r ih =>
    cases hs : isSpace c with
    | true =>
      have hspc : spcChar c = ' ' := by simp [spcChar, hs]
      cases ps with
      | true =>
        rw [show collapseWSAux true (c :: r) = collapseWSAux true r from by
          simp [collapseWSAux, hs], List.map_cons]
        exact List.Sublist.cons _ (ih true)
      | false =>
        rw [show collapseWSAux false (c :: r) = ' ' :: collapseWSAux true r from by
          simp [collapseWSAux, hs], List.map_cons, hspc]
        exact List.Sublist.cons₂ _ (ih true)
    | false =>
      have hspc : spcChar c = c := by simp [spcChar, hs]
      rw [collapse_nonspace_cons hs, List.map_cons, hspc]
      exact List.Sublist.cons₂ _ (ih false)

theorem spcChar_eq_iff {a d : Char} (ha : isSpace a = false) (ha2 : ¬ a = ' ') :
    spcChar d = a ↔ d = a := by
  unfold spcChar
  by_cases hd : isSpace d = true
  · rw [if_pos hd]
    constructor
    · intro h
      exact absurd h.symm ha2
    · intro h
      rw [h] at hd
      rw [ha] at hd
      exact absurd hd (by simp)
  · rw [if_neg hd]

theorem pairFreeB_map_spc {op cl : Char} (hop : isSpace op = false) (hop2 : ¬ op = ' ')
    (hcl : isSpace cl = false) (hcl2 : ¬ cl = ' ') :
    ∀ l : List Char, pairFreeB op cl (l.map spcChar) = pairFreeB op cl l := by
  intro l
  have hmem : ∀ r : List Char, cl ∈ r.map spcChar ↔ cl ∈ r := by
    intro r
    rw [List.mem_map]
    constructor
    · rintro ⟨d, hd, hde⟩
      rw [← (spcChar_eq_iff hcl hcl2).mp hde]
      exact hd
    · intro h
      exact ⟨cl, h, (spcChar_eq_iff hcl hcl2).mpr rfl⟩
  induction l with
  | nil => rfl
  | cons c r ih =>
    rw [List.map_cons]
    by_cases hco : c = op
    · have h1 : (spcChar c == op) = true := by
        rw [beq_iff_eq, spcChar_eq_iff hop hop2]
        exact hco
      have h2 : (c == op) = true := by rw [beq_iff_eq]; exact hco
      simp only [pairFreeB, if_pos h1, if_pos h2, decide_eq_true_eq]
      simp [hmem r]
    · have h1 : (spcChar c == op) = false := by
        rw [beq_eq_false_iff_ne, Ne, spcChar_eq_iff hop hop2]
        exact hco
      have h2 : (c == op) = false := by rw [beq_eq_false_iff_ne]; exact hco
      have h1n : ¬ ((spcChar c == op) = true) := by rw [h1]; simp
      have h2n : ¬ ((c == op) = true) := by rw [h2]; simp
      simp only [pairFreeB, if_neg h1n, if_neg h2n]
      exact ih

theorem remFill_sublist : ∀ (b : Bool) (l : List Char),
    List.Sublist (remFillAux b l) l := by
  intro b l
  induction b, l using remFillAux.induct with
  | case1 b => cases b <;> exact List.Sublist.refl _
  | case2 c r ih => exact List.Sublist.cons₂ _ ih
  | case3 r hb ih =>
    rw [show remFillAux false ('u' :: 'm' :: r) = remFillAux true r from by
      simp [remFillAux, hb]]
    exact ih.trans ((List.sublist_cons_self ..).trans (List.sublist_cons_self ..))
  | case4 r hb ih =>
    have hbf : bndB r = false := by simpa using hb
    rw [show remFillAux false ('u' :: 'm' :: r) = 'u' :: 'm' :: remFillAux true r from by
      simp [remFillAux, hbf]]
    exact List.Sublist.cons₂ _ (List.Sublist.cons₂ _ ih)
  | case5 r hb ih =>
    rw [show remFillAux false ('u' :: 'h' :: r) = remFillAux true r from by
      simp [remFillAux, hb]]
    exact ih.trans ((List.sublist_cons_self ..).trans (List.sublist_cons_self ..))
  | case6 r hb ih =>
    have hbf : bndB r = false := by simpa using hb
    rw [show remFillAux false ('u' :: 'h' :: r) = 'u' :: 'h' :: remFillAux true r from by
      simp [remFillAux, hbf]]
    exact List.Sublist.cons₂ _ (List.Sublist.cons₂ _ ih)
  | case7 r hb ih =>
    rw [show remFillAux false ('a' :: 'h' :: r) = remFillAux true r from by
      simp [remFillAux, hb]]
    exact ih.trans ((List.sublist_cons_self ..).trans (List.sublist_cons_self ..))
  | case8 r hb ih =>
    have hbf : bndB r = false := by simpa using hb
    rw [show remFillAux false ('a' :: 'h' :: r) = 'a' :: 'h' :: remFillAux true r from by
      simp [remFillAux, hbf]]
    exact List.Sublist.cons₂ _ (List.Sublist.cons₂ _ ih)
  | case9 r hb ih =>
    rw [show remFillAux false ('e' :: 'r' :: r) = remFillAux true r from by
      simp [remFillAux, hb]]
    exact ih.trans ((List.sublist_cons_self ..).trans (List.sublist_cons_self ..))
  | case10 r hb ih =>
    have hbf : bndB r = false := by simpa using hb
    rw [show remFillAux false ('e' :: 'r' :: r) = 'e' :: 'r' :: remFillAux true r from by
      simp [remFillAux, hbf]]
    exact List.Sublist.cons₂ _ (List.Sublist.cons₂ _ ih)
  | case11 r hb ih =>
    rw [show remFillAux false ('l' :: 'i' :: 'k' :: 'e' :: r) = remFillAux true r from by
      simp [remFillAux, hb]]
    exact ih.trans ((List.sublist_cons_self ..).trans ((List.sublist_cons_self ..).trans
      ((List.sublist_cons_self ..).trans (List.sublist_cons_self ..))))
  | case12 r hb ih =>
    have hbf : bndB r = false := by simpa using hb
    rw [show remFillAux false ('l' :: 'i' :: 'k' :: 'e' :: r) =
        'l' :: 'i' :: 'k' :: 'e' :: remFillAux true r from by
      simp [remFillAux, hbf]]
    exact List.Sublist.cons₂ _ (List.Sublist.cons₂ _ (List.Sublist.cons₂ _
      (List.Sublist.cons₂ _ ih)))
  | case13 c r hn1 hn2 hn3 hn4 hn5 ih =>
    rw [remFill_dflt2 ⟨hn1, hn2, hn3, hn4, hn5⟩]
    exact List.Sublist.cons₂ _ ih

theorem stripWS_sublist (l : List Char) : List.Sublist (stripWS l) l := by
  unfold stripWS
  have h1 : List.Sublist ((l.dropWhile isSpace).reverse.dropWhile isSpace)
      (l.dropWhile isSpace).reverse := List.dropWhile_sublist _
  have h2 := List.reverse_sublist.mpr h1
  rw [List.reverse_reverse] at h2
  exact h2.trans (List.dropWhile_sublist _)

/-! ## Well-spaced text: collapsing is the identity on collapsed output -/

/-- The head, if any, is not whitespace. -/
def nextOk : List Char → Bool
  | [] => true
  | c :: _ => !isSpace c

/-- Every whitespace character is a plain space and none is followed by
another whitespace character. -/
def wellSp : List Char → Bool
  | [] => true
  | c :: r => (!isSpace c || (c == ' ' && nextOk r)) && wellSp r

theorem wellSp_tail {c : Char} {r : List Char} (h : wellSp (c :: r) = true) :
    wellSp r = true := (Bool.and_eq_true .. ▸ h).2

theorem collapse_wellSp : ∀ l : List Char,
    wellSp (collapseWSAux false l) = true ∧
      (wellSp (collapseWSAux true l) = true ∧ nextOk (collapseWSAux true l) = true) := by
  intro l
  induction l with
  | nil => exact ⟨rfl, rfl, rfl⟩
  | cons c r ih =>
    cases hs : isSpace c with
    | true =>
      have e1 : collapseWSAux false (c :: r) = ' ' :: collapseWSAux true r := by
        simp [collapseWSAux, hs]
      have e2 : collapseWSAux true (c :: r) = collapseWSAux true r := by
        simp [collapseWSAux, hs]
      refine ⟨?_, ?_, ?_⟩
      · rw [e1]
        simp [wellSp, ih.2.1, ih.2.2]
      · rw [e2]
        exact ih.2.1
      · rw [e2]
        exact ih.2.2
    | false =>
      have e1 : collapseWSAux false (c :: r) = c :: collapseWSAux false r :=
        collapse_nonspace_cons hs false r
      have e2 : collapseWSAux true (c :: r) = c :: collapseWSAux false r :=
        collapse_nonspace_cons hs true r
      refine ⟨?_, ?_, ?_⟩
      · rw [e1]
        simp [wellSp, hs, ih.1]
      · rw [e2]
        simp [wellSp, hs, ih.1]
      · rw [e2]
        simp [nextOk, hs]

theorem nextOk_collapse_eq {r : List Char} (h : nextOk r = true) :
    collapseWSAux true r = collapseWSAux false r := by
  cases r with
  | nil => rfl
  | cons d r2 =>
    have hd : isSpace d = false := by simpa [nextOk] using h
    rw [collapse_nonspace_cons hd, collapse_nonspace_cons hd]

theorem wellSp_collapse_id : ∀ l : List Char, wellSp l = true → collapseWSAux false l = l := by
  intro l
  induction l with
  | nil => intro _; rfl
  | cons c r ih =>
    intro h
    have hcond : (!isSpace c || (c == ' ' && nextOk r)) = true := (Bool.and_eq_true .. ▸ h).1
    have hr : wellSp r = true := wellSp_tail h
    cases hs : isSpace c with
    | false =>
      rw [collapse_nonspace_cons hs, ih hr]
    | true =>
      rw [hs] at hcond
      simp only [Bool.not_true, Bool.false_or, Bool.and_eq_true, beq_iff_eq] at hcond
      obtain ⟨hsp, hnext⟩ := hcond
      rw [show collapseWSAux false (c :: r) = ' ' :: collapseWSAux true r from by
        simp [collapseWSAux, hs]]
      rw [nextOk_collapse_eq hnext, ih hr, hsp]

theorem wellSp_append_left : ∀ (A B : List Char), wellSp (A ++ B) = true → wellSp A = true := by
  intro A
  induction A with
  | nil => intro B _; rfl
  | cons a A2 ih =>
    intro B h
    rw [List.cons_append] at h
    have hcond : (!isSpace a || (a == ' ' && nextOk (A2 ++ B))) = true := (Bool.and_eq_true .. ▸ h).1
    have hrest : wellSp A2 = true := ih B (wellSp_tail h)
    have hcond2 : (!isSpace a || (a == ' ' && nextOk A2)) = true := by
      rcases Bool.or_eq_true .. ▸ hcond with h1 | h1
      · rw [h1]
        rfl
      · rcases Bool.and_eq_true .. ▸ h1 with ⟨h2, h3⟩
        cases A2 with
        | nil => simp [h2, nextOk]
        | cons d A3 =>
          rw [List.cons_append] at h3
          simp [h2, nextOk] at h3 ⊢
          exact Or.inr h3
    simp [wellSp, hcond2, hrest]

theorem wellSp_space_mem : ∀ {w : List Char}, wellSp w = true →
    ∀ c ∈ w, isSpace c = true → c = ' ' := by
  intro w
  induction w with
  | nil => intro _ c hc; exact absurd hc (List.not_mem_nil c)
  | cons a r ih =>
    intro h c hc hcs
    rcases List.mem_cons.mp hc with rfl | hc2
    · have hcond : (!isSpace c || (c == ' ' && nextOk r)) = true := (Bool.and_eq_true .. ▸ h).1
      rw [hcs] at hcond
      simp only [Bool.not_true, Bool.false_or, Bool.and_eq_true, beq_iff_eq] at hcond
      exact hcond.1
    · exact ih (wellSp_tail h) c hc2 hcs

theorem wellSp_dropWhile {w : List Char} (h : wellSp w = true) :
    wellSp (w.dropWhile isSpace) = true := by
  induction w with
  | nil => rfl
  | cons c r ih =>
    by_cases hs : isSpace c = true
    · rw [List.dropWhile_cons, if_pos hs]
      exact ih (wellSp_tail h)
    · rw [List.dropWhile_cons, if_neg hs]
      exact h

theorem stripWS_wellSp {w : List Char} (h : wellSp w = true) :
    wellSp (stripWS w) = true := by
  have hm : wellSp (w.dropWhile isSpace) = true := wellSp_dropWhile h
  obtain ⟨hdec, -⟩ := strip_back_decomp (w.dropWhile isSpace)
  rw [hdec] at hm
  exact wellSp_append_left _ _ hm

/-! ## Strip is idempotent; other small facts for renormalization -/

theorem nextOk_dropWhile : ∀ l : List Char, nextOk (l.dropWhile isSpace) = true := by
  intro l
  induction l with
  | nil => rfl
  | cons c r ih =>
    by_cases hs : isSpace c = true
    · rw [List.dropWhile_cons, if_pos hs]
      exact ih
    · rw [List.dropWhile_cons, if_neg hs]
      simp only [nextOk, Bool.not_eq_true']
      exact Bool.not_eq_true _ ▸ hs

theorem dropWhile_of_nextOk {m : List Char} (h : nextOk m = true) :
    m.dropWhile isSpace = m := by
  cases m with
  | nil => rfl
  | cons c r =>
    have : isSpace c = false := by simpa [nextOk] using h
    rw [List.dropWhile_cons, if_neg (by simp [this])]

theorem nextOk_of_prefix {m A tr : List Char} (hm : m = A ++ tr) (h : nextOk m = true)
    (hA : A ≠ []) : nextOk A = true := by
  cases A with
  | nil => exact absurd rfl hA
  | cons a A2 =>
    rw [hm, List.cons_append] at h
    exact h

theorem stripWS_idem (l : List Char) : stripWS (stripWS l) = stripWS l := by
  have hfs : (stripWS l).dropWhile isSpace = stripWS l := by
    apply dropWhile_of_nextOk
    obtain ⟨hdec, -⟩ := strip_back_decomp (l.dropWhile isSpace)
    by_cases hB : ((l.dropWhile isSpace).reverse.dropWhile isSpace).reverse = []
    · show nextOk (((l.dropWhile isSpace).reverse.dropWhile isSpace).reverse) = true
      rw [hB]
      rfl
    · exact nextOk_of_prefix hdec (nextOk_dropWhile l) hB
  show (((stripWS l).dropWhile isSpace).reverse.dropWhile isSpace).reverse = stripWS l
  rw [hfs]
  have hrev : (stripWS l).reverse = (l.dropWhile isSpace).reverse.dropWhile isSpace := by
    unfold stripWS
    rw [List.reverse_reverse]
  rw [hrev, dropWhile_of_nextOk (nextOk_dropWhile _)]
  rfl

theorem splitOnChar_no_sep {sep : Char} : ∀ {l : List Char}, sep ∉ l →
    splitOnChar sep l = [l] := by
  intro l
  induction l with
  | nil => intro _; rfl
  | cons c r ih =>
    intro h
    have hc : (c == sep) = false := by
      simp only [beq_eq_false_iff_ne, ne_eq]
      intro hce
      exact h (hce ▸ List.mem_cons_self ..)
    rw [show splitOnChar sep (c :: r) =
        match splitOnChar sep r with
        | [] => [[]]
        | p :: ps => if c == sep then [] :: p :: ps else (c :: p) :: ps from rfl]
    rw [ih fun hm => h (List.mem_cons_of_mem _ hm)]
    simp [hc]

theorem intercalate_single (s a : List Char) : List.intercalate s [a] = a := by
  simp [List.intercalate]

theorem clean_text_no_newline (x : List Char) : '\n' ∉ clean_text x := by
  intro hmem
  have h1 : '\n' ∈ collapseWSAux false (remFillAux false (removeSpans '(' ')'
      (removeSpans '[' ']' (List.intercalate [' ']
        (((splitOnChar '\n' x).map stripWS).filter (fun l => !lineDrop l)))))) :=
    (stripWS_sublist _).subset hmem
  have h2 := wellSp_space_mem (collapse_wellSp _).1 '\n' h1 (by decide)
  exact absurd h2 (by decide)

/-! ## Renormalization (C4) -/

theorem clean_fixpoint_of (y : List Char)
    (F1 : '\n' ∉ y) (F2 : stripWS y = y) (F3 : lineDrop y = false)
    (F4 : pairFreeB '[' ']' y = true) (F5 : pairFreeB '(' ')' y = true)
    (F6 : remFillAux false y = y) (F7 : collapseWSAux false y = y) :
    clean_text y = y := by
  show stripWS (collapseWSAux false (remFillAux false (removeSpans '(' ')' (removeSpans '[' ']'
    (List.intercalate [' ']
      (((splitOnChar '\n' y).map stripWS).filter (fun l => !lineDrop l))))))) = y
  rw [splitOnChar_no_sep F1]
  simp only [List.map_cons, List.map_nil]
  rw [F2]
  rw [show List.filter (fun l => !lineDrop l) [y] = [y] from by
    rw [List.filter_cons]
    simp [F3]]
  rw [intercalate_single]
  rw [pairFree_removeSpans_id F4]
  rw [pairFree_removeSpans_id F5]
  rw [F6, F7, F2]

/-- C4 (amended): renormalizing removes nothing further - the second pass is
the identity - except through the line filter: when `clean_text x` is itself a
pure-digit or timestamp-prefixed line, the second pass drops it entirely (see
the counterexample).  Under the hypothesis that the normalized text does not
match the line-drop pattern, `clean_text (clean_text x) = clean_text x`
exactly: no additional filler word, bracket span or whitespace is removed. -/
theorem clean_text_idem (x : List Char) (h : lineDrop (clean_text x) = false) :
    clean_text (clean_text x) = clean_text x := by
  have hy : clean_text x = stripWS (collapseWSAux false (remFillAux false (removeSpans '(' ')'
      (removeSpans '[' ']' (List.intercalate [' ']
        (((splitOnChar '\n' x).map stripWS).filter (fun l => !lineDrop l))))))) := rfl
  have F1 : '\n' ∉ clean_text x := clean_text_no_newline x
  have F2 : stripWS (clean_text x) = clean_text x := by
    rw [hy]
    exact stripWS_idem _
  have hwell : wellSp (clean_text x) = true := by
    rw [hy]
    exact stripWS_wellSp (collapse_wellSp _).1
  have F7 : collapseWSAux false (clean_text x) = clean_text x :=
    wellSp_collapse_id _ hwell
  have F4 : pairFreeB '[' ']' (clean_text x) = true := by
    rw [hy]
    refine pairFreeB_sublist (stripWS_sublist _) ?_
    refine pairFreeB_sublist (collapse_sublist_spc false _) ?_
    rw [pairFreeB_map_spc (by decide) (by decide) (by decide) (by decide)]
    refine pairFreeB_sublist (remFill_sublist false _) ?_
    refine pairFreeB_sublist (removeSpans_sublist '(' ')' _) ?_
    exact removeSpans_pairFree '[' ']' _
  have F5 : pairFreeB '(' ')' (clean_text x) = true := by
    rw [hy]
    refine pairFreeB_sublist (stripWS_sublist _) ?_
    refine pairFreeB_sublist (collapse_sublist_spc false _) ?_
    rw [pairFreeB_map_spc (by decide) (by decide) (by decide) (by decide)]
    refine pairFreeB_sublist (remFill_sublist false _) ?_
    exact removeSpans_pairFree '(' ')' _
  have F6 : remFillAux false (clean_text x) = clean_text x :=
    remFill_fix_clean_chain (removeSpans '(' ')' (removeSpans '[' ']' (List.intercalate [' ']
      (((splitOnChar '\n' x).map stripWS).filter (fun l => !lineDrop l)))))
  exact clean_fixpoint_of _ F1 F2 h F4 F5 F6 F7

theorem clean_text_idem_witness :
    lineDrop (clean_text (strL "hello world and more")) = false ∧
      clean_text (clean_text (strL "hello world and more")) =
        clean_text (strL "hello world and more") :=
  ⟨by decide, clean_text_idem _ (by decide)⟩

/-- C4 (counterexample): `clean_text "[a] 123"` is `"123"`: the bracket removal
exposes a pure-digit line that survived the first pass's line filter, and a
second `clean_text` deletes it, returning `""`. -/
theorem clean_text_idem_cex :
    clean_text (strL "[a] 123") = strL "123" ∧
      lineDrop (strL "123") = true ∧
      clean_text (clean_text (strL "[a] 123")) = strL "" ∧
      clean_text (strL "[a] 123") ≠ strL "" :=
  ⟨by decide, by decide, by decide, by decide⟩
